import Mathlib

/-!
Verification of the Sudoku CSP solver (core/csp.py and puzzles/generator.py).

The solver is shallowly embedded: Python dicts keyed by cell coordinates
become functions or association lists, the recursive generator
`backtrack_generator` becomes a fuel-indexed function returning the fully
drained event list together with the final statistics, and helper methods
(`is_consistent`, `select_unassigned_var`, `order_domain_values`,
`forward_check`, `_count_constraints`, `_remove_conflicts`) are translated
one to one.
-/

/-- Cell coordinate `(row, col)`, the key type of all solver dictionaries. -/
abbrev Var := Nat × Nat

/-- Assignment dictionary: insertion-ordered association list, as a Python
dict with unique keys. -/
abbrev Assignment := List (Var × Nat)

/-- Domain dictionary, as a total function; the solver only ever reads it at
variables of the engine. -/
abbrev Domains := Var → List Nat

/-- Removal record built by `forward_check`: one entry per domain key, in
dictionary order. -/
abbrev Removed := List (Var × List Nat)

/-- Lookup in a list-valued association list, defaulting to the empty list. -/
def lookupLs : List (Var × List Nat) → Var → List Nat
  | [], _ => []
  | (k, l) :: rest, v => if k = v then l else lookupLs rest v

/-- In-place overwrite of one key of a list-valued association list. -/
def updateLs (rm : List (Var × List Nat)) (k : Var) (l : List Nat) :
    List (Var × List Nat) :=
  rm.map (fun p => if p.1 = k then (k, l) else p)

/-- Truncated integer square root, the value of Python `int(np.sqrt(n))`:
the largest `k ≤ n` with `k * k ≤ n`, computed by a plain fold so that the
kernel can evaluate it. -/
def intSqrt (n : Nat) : Nat :=
  (List.range (n + 1)).foldl (fun acc k => if k * k ≤ n then k else acc) 0

/-- Dictionary lookup on an association list (first matching key wins, as in
a Python dict whose keys are unique). -/
def lookupA : Assignment → Var → Option Nat
  | [], _ => none
  | (k, x) :: rest, v => if k = v then some x else lookupA rest v

/-- Python `assignment[var] = value`: overwrite in place if present,
otherwise append, preserving insertion order. -/
def dictSet (a : Assignment) (k : Var) (x : Nat) : Assignment :=
  if (lookupA a k).isSome then a.map (fun p => if p.1 = k then (k, x) else p)
  else a ++ [(k, x)]

/-- Python `del assignment[var]`: drop the key, preserving the order of the
remaining entries. -/
def dictDel (a : Assignment) (k : Var) : Assignment :=
  a.filter (fun p => decide (p.1 ≠ k))

/-- Pointwise update of a function-valued dictionary. -/
def updateF (f : Var → List Nat) (k : Var) (l : List Nat) : Var → List Nat :=
  fun v => if v = k then l else f v

/-- Cell access `board[r][c]` with the out-of-range default 0 (never reached
on well-formed boards). -/
def getCell (board : List (List Nat)) (r c : Nat) : Nat :=
  (board.getD r []).getD c 0

/-- The repeated neighbourhood condition of csp.py:
`r == row or c == col or (r // bs == row // bs and c // bs == col // bs)`. -/
def sharesUnit (bs : Nat) (u v : Var) : Bool :=
  u.1 == v.1 || u.2 == v.2 || (u.1 / bs == v.1 / bs && u.2 / bs == v.2 / bs)

/-- Search statistics, the fields set by `reset` and mutated by the search. -/
structure Stats where
  nodes : Nat
  backtracks : Nat
  solutions : Nat
  deriving DecidableEq, Repr

/-- Events yielded by `backtrack_generator`. -/
inductive SEvent where
  | solution (snap : Assignment)
  | mrv (v : Var) (dom : List Nat)
  | lcv (v : Var) (vals : List Nat)
  | pruned (v : Var) (value : Nat)
  | assign (v : Var) (value : Nat) (snap : Assignment)
  | fc_fail (v : Var) (value : Nat) (removed : Removed)
  | fc_ok (v : Var) (value : Nat) (removed : Removed)
  | unassign (v : Var) (snap : Assignment)
  deriving DecidableEq, Repr

/-- The engine instance built by `SudokuCSP.__init__`. -/
structure SudokuCSP where
  size : Nat
  box_size : Nat
  initial_board : List (List Nat)
  vars : List Var
  initial_domains : Domains

/-- Board defaulting of the constructor: `None` becomes the all-zero grid. -/
def boardOfOpt (size : Nat) : Option (List (List Nat)) → List (List Nat)
  | none => List.replicate size (List.replicate size 0)
  | some b => b

/-- Variable list of the constructor: the empty cells in row-major order. -/
def initVars (size : Nat) (board : List (List Nat)) : List Var :=
  (List.range size).flatMap (fun r => (List.range size).filterMap (fun c =>
    if getCell board r c = 0 then some (r, c) else none))

/-- Domain dictionary right after the variable set-up loop: `1..size` for
every variable, arbitrary (empty) elsewhere. -/
def baseDomains (vars : List Var) (size : Nat) : Domains :=
  fun v => if v ∈ vars then List.range' 1 size else []

/-- Method `_remove_conflicts`: erase `value` from the domain of every key
sharing the row, column or box of `(row, col)`. -/
def removeConflicts (bs row col value : Nat) (domains : Domains) : Domains :=
  fun v => if sharesUnit bs v (row, col) then (domains v).erase value else domains v

/-- One constructor pruning step for one scanned cell: prune against it
when it is filled. -/
def pruneStep (bs : Nat) (board : List (List Nat)) (d : Domains) (u : Var) : Domains :=
  if getCell board u.1 u.2 ≠ 0 then
    removeConflicts bs u.1 u.2 (getCell board u.1 u.2) d
  else d

/-- Constructor loop pruning the initial domains against every filled cell,
in row-major order. -/
def pruneFilled (bs size : Nat) (board : List (List Nat)) (d0 : Domains) : Domains :=
  (List.range size).foldl (fun d r =>
    (List.range size).foldl (fun d c => pruneStep bs board d (r, c)) d) d0

/-- `SudokuCSP.__init__`: box size `int(np.sqrt(size))` (modelled as
`intSqrt`), row-by-row copy of the board, variables from empty cells,
domains `1..size` pruned against every filled cell.  The Python constructor
raises no error on any size. -/
def mkSudokuCSP (size : Nat) (initial_board : Option (List (List Nat))) : SudokuCSP :=
  let board := boardOfOpt size initial_board
  let bs := intSqrt size
  let vars := initVars size board
  { size := size
    box_size := bs
    initial_board := board
    vars := vars
    initial_domains := pruneFilled bs size board (baseDomains vars size) }

/-- Method `is_consistent`: scan the row, the column and the box of `var`
for an assigned cell holding `value`. -/
def SudokuCSP.is_consistent (csp : SudokuCSP) (var : Var) (value : Nat)
    (assignment : Assignment) : Bool :=
  let row := var.1
  let col := var.2
  let bs := csp.box_size
  ((List.range csp.size).all fun c => !(lookupA assignment (row, c) == some value)) &&
  ((List.range csp.size).all fun r => !(lookupA assignment (r, col) == some value)) &&
  ((List.range bs).all fun i => (List.range bs).all fun j =>
    !(lookupA assignment (row / bs * bs + i, col / bs * bs + j) == some value))

/-- Method `_count_constraints`: number of unassigned variables other than
`var` sharing its row, column or box. -/
def SudokuCSP.count_constraints (csp : SudokuCSP) (var : Var)
    (assignment : Assignment) : Nat :=
  (csp.vars.filter (fun u =>
    (lookupA assignment u).isNone && u != var && sharesUnit csp.box_size u var)).length

/-- Strict comparison of the Python key tuples `(len(domain), -count)`:
the second component is compared in reverse because of the negation. -/
def keyLt (a b : Nat × Nat) : Bool :=
  a.1 < b.1 || (a.1 == b.1 && b.2 < a.2)

/-- Python `min` with a key function: left-to-right scan keeping the first
element whose key is minimal. -/
def minByKey (key : Var → Nat × Nat) : Var → List Var → Var
  | best, [] => best
  | best, v :: rest =>
      if keyLt (key v) (key best) then minByKey key v rest else minByKey key best rest

/-- Method `select_unassigned_var`: MRV with degree tie-break; `none` models
the `ValueError` Python `min` raises on an empty candidate list. -/
def SudokuCSP.select_unassigned_var (csp : SudokuCSP) (domains : Domains)
    (assignment : Assignment) : Option Var :=
  match csp.vars.filter (fun v => (lookupA assignment v).isNone) with
  | [] => none
  | v :: rest =>
      some (minByKey (fun u => ((domains u).length, csp.count_constraints u assignment)) v rest)

/-- Elimination count of the LCV heuristic for one candidate value. -/
def eliminatedCount (csp : SudokuCSP) (var : Var) (domains : Domains)
    (assignment : Assignment) (value : Nat) : Nat :=
  (csp.vars.filter (fun u =>
    u != var && (lookupA assignment u).isNone && sharesUnit csp.box_size u var &&
    (domains u).contains value)).length

/-- Stable insertion of `x` behind every element with a strictly smaller
key, in front of every element with an equal or larger key. -/
def insertByKey (f : Nat → Nat) (x : Nat) : List Nat → List Nat
  | [] => [x]
  | y :: ys => if f y < f x then y :: insertByKey f x ys else x :: y :: ys

/-- Stable ascending sort by key, the result of Python `list.sort(key=f)`. -/
def sortByKey (f : Nat → Nat) : List Nat → List Nat
  | [] => []
  | x :: xs => insertByKey f x (sortByKey f xs)

/-- Method `order_domain_values`: the domain of `var` stably sorted by
ascending elimination count. -/
def SudokuCSP.order_domain_values (csp : SudokuCSP) (var : Var) (domains : Domains)
    (assignment : Assignment) : List Nat :=
  sortByKey (eliminatedCount csp var domains assignment) (domains var)

/-- Loop of `forward_check` over the variable list: erase `value` from each
neighbour's copied domain, record the removal, fail on the first empty
domain. -/
def fcLoop (csp : SudokuCSP) (var : Var) (value : Nat) :
    List Var → Domains → Removed → Option Domains × Removed
  | [], nd, rm => (some nd, rm)
  | u :: rest, nd, rm =>
    if u = var then fcLoop csp var value rest nd rm
    else if sharesUnit csp.box_size u var then
      if (nd u).contains value then
        if (nd u).erase value = [] then
          (none, updateLs rm u (lookupLs rm u ++ [value]))
        else
          fcLoop csp var value rest (updateF nd u ((nd u).erase value))
            (updateLs rm u (lookupLs rm u ++ [value]))
      else
        if nd u = [] then (none, rm)
        else fcLoop csp var value rest nd rm
    else fcLoop csp var value rest nd rm

/-- Method `forward_check`: deep copy of the domains with `var` pinned to
`[value]`, then the pruning loop. -/
def SudokuCSP.forward_check (csp : SudokuCSP) (var : Var) (value : Nat)
    (domains : Domains) : Option Domains × Removed :=
  fcLoop csp var value csp.vars (updateF domains var [value]) (csp.vars.map (fun v => (v, [])))

/-- Value loop of `backtrack_generator`, parameterized by the recursive
call `child`.  Events and statistics follow the Python control flow:
`pruned` on an inconsistency, `assign`/`fc_fail`/`unassign` with a
backtrack bump on a domain wipe-out, `assign`/`fc_ok`/child
events/`unassign` with a backtrack bump otherwise. -/
def btLoop (csp : SudokuCSP) (var : Var)
    (child : Domains → Assignment → Stats → Option (List SEvent × Stats)) :
    List Nat → Domains → Assignment → Stats → Option (List SEvent × Stats)
  | [], _, _, s => some ([], s)
  | value :: rest, domains, assignment, s =>
    if csp.is_consistent var value assignment then
      match csp.forward_check var value domains with
      | (none, removed) =>
        match btLoop csp var child rest domains
            (dictDel (dictSet assignment var value) var)
            { s with backtracks := s.backtracks + 1 } with
        | none => none
        | some (evs, s') =>
          some (SEvent.assign var value (dictSet assignment var value) ::
                SEvent.fc_fail var value removed ::
                SEvent.unassign var (dictDel (dictSet assignment var value) var) :: evs, s')
      | (some nd, removed) =>
        match child nd (dictSet assignment var value) s with
        | none => none
        | some (cevs, s2) =>
          match btLoop csp var child rest domains
              (dictDel (dictSet assignment var value) var)
              { s2 with backtracks := s2.backtracks + 1 } with
          | none => none
          | some (evs, s') =>
            some (SEvent.assign var value (dictSet assignment var value) ::
                  SEvent.fc_ok var value removed ::
                  (cevs ++ SEvent.unassign var (dictDel (dictSet assignment var value) var) :: evs), s')
    else
      match btLoop csp var child rest domains assignment s with
      | none => none
      | some (evs, s') => some (SEvent.pruned var value :: evs, s')

/-- Method `backtrack_generator`, fully drained, indexed by recursion fuel:
`none` when the fuel is exhausted (or Python would raise), otherwise the
complete event list and the final statistics. -/
def btFuel (csp : SudokuCSP) : Nat → Domains → Assignment → Stats →
    Option (List SEvent × Stats)
  | 0, _, _, _ => none
  | fuel + 1, domains, assignment, s =>
    if assignment.length = csp.vars.length then
      some ([SEvent.solution assignment],
            { s with nodes := s.nodes + 1, solutions := s.solutions + 1 })
    else
      match csp.select_unassigned_var domains assignment with
      | none => none
      | some var =>
        match btLoop csp var (fun nd a1 s2 => btFuel csp fuel nd a1 s2)
            (csp.order_domain_values var domains assignment) domains assignment
            { s with nodes := s.nodes + 1 } with
        | none => none
        | some (evs, s') =>
          some (SEvent.mrv var (domains var) ::
                SEvent.lcv var (csp.order_domain_values var domains assignment) :: evs, s')

/-- Fuel that will turn out to suffice for any full drain from the default
entry point. -/
def solveBound (csp : SudokuCSP) : Nat :=
  csp.vars.length + 1

/-- Default invocation `backtrack_generator()` on a freshly constructed
(hence freshly reset) engine: initial domains, empty assignment, zero
statistics. -/
def SudokuCSP.backtrack_default (csp : SudokuCSP) (fuel : Nat) :
    Option (List SEvent × Stats) :=
  btFuel csp fuel csp.initial_domains [] { nodes := 0, backtracks := 0, solutions := 0 }

/-- Counting loop of `is_valid_puzzle`: bail out with `False` as soon as a
second solution event is seen, otherwise compare the final count with 1. -/
def countSolLoop : List SEvent → Nat → Bool
  | [], k => k == 1
  | e :: es, k =>
    match e with
    | SEvent.solution _ => if k + 1 > 1 then false else countSolLoop es (k + 1)
    | _ => countSolLoop es k

/-- Function `is_valid_puzzle` of puzzles/generator.py. -/
def is_valid_puzzle (board : List (List Nat)) : Bool :=
  let csp := mkSudokuCSP board.length (some board)
  match csp.backtrack_default (solveBound csp) with
  | none => false
  | some (evs, _) => countSolLoop evs 0

/-- Partial folds of `intSqrt`: after scanning `0..m`, the accumulator is
the smaller of `m` and the true square root. -/
theorem intSqrt_fold (n : Nat) :
    ∀ m : Nat, (List.range (m + 1)).foldl
      (fun acc k => if k * k ≤ n then k else acc) 0 = min m (Nat.sqrt n) := by
  intro m
  induction m with
  | zero => simp [List.range_succ]
  | succ m ih =>
    rw [List.range_succ, List.foldl_append, ih]
    by_cases h : (m + 1) * (m + 1) ≤ n
    · have h1 : m + 1 ≤ Nat.sqrt n := Nat.le_sqrt.mpr h
      simp [h, Nat.min_eq_left h1]
    · have h1 : Nat.sqrt n < m + 1 := Nat.sqrt_lt.mpr (Nat.lt_of_not_le h)
      have h2 : Nat.sqrt n ≤ m := Nat.lt_succ_iff.mp h1
      simp [h, Nat.min_eq_right h2, Nat.min_eq_right (Nat.le_succ_of_le h2)]

/-- The executable truncated square root agrees with `Nat.sqrt`. -/
theorem intSqrt_eq_sqrt (n : Nat) : intSqrt n = Nat.sqrt n := by
  rw [intSqrt, intSqrt_fold n n, Nat.min_eq_right (Nat.sqrt_le_self n)]

/-! ### Statistics bookkeeping -/

/-- Statistics inequality carried through the value loop: the solution count
can grow at most as fast as the node count, assuming the recursive call
obeys the same bound. -/
theorem btLoop_stats {csp : SudokuCSP} {var : Var}
    {child : Domains → Assignment → Stats → Option (List SEvent × Stats)}
    (hchild : ∀ d a s r, child d a s = some r →
      s.nodes + r.2.solutions ≤ s.solutions + r.2.nodes) :
    ∀ {values : List Nat} {domains assignment s r},
      btLoop csp var child values domains assignment s = some r →
      s.nodes + r.2.solutions ≤ s.solutions + r.2.nodes := by
  intro values
  induction values with
  | nil =>
    intro d a s r h
    simp only [btLoop, Option.some.injEq] at h
    subst h
    dsimp only
    omega
  | cons value rest ih =>
    intro d a s r h
    simp only [btLoop] at h
    split at h
    · split at h
      · split at h
        · exact absurd h (by simp)
        · next evs s' heq =>
            simp only [Option.some.injEq] at h
            subst h
            have := ih heq
            dsimp only at this ⊢
            omega
      · split at h
        · exact absurd h (by simp)
        · next cevs s2 hc =>
          split at h
          · exact absurd h (by simp)
          · next evs s' heq =>
            simp only [Option.some.injEq] at h
            subst h
            have h1 := hchild _ _ _ _ hc
            have h2 := ih heq
            dsimp only at h1 h2 ⊢
            omega
    · split at h
      · exact absurd h (by simp)
      · next evs s' heq =>
        simp only [Option.some.injEq] at h
        subst h
        have := ih heq
        dsimp only at this ⊢
        omega

/-- Statistics inequality for the drained generator at any entry state. -/
theorem btFuel_stats {csp : SudokuCSP} :
    ∀ {fuel : Nat} {domains assignment s r},
      btFuel csp fuel domains assignment s = some r →
      s.nodes + r.2.solutions ≤ s.solutions + r.2.nodes := by
  intro fuel
  induction fuel with
  | zero => intro d a s r h; exact absurd h (by simp [btFuel])
  | succ fuel ih =>
    intro d a s r h
    simp only [btFuel] at h
    split at h
    · simp only [Option.some.injEq] at h
      subst h
      dsimp only
      omega
    · split at h
      · exact absurd h (by simp)
      · split at h
        · exact absurd h (by simp)
        · next evs s' heq =>
          simp only [Option.some.injEq] at h
          subst h
          have := btLoop_stats (fun d a s r hr => ih hr) heq
          dsimp only at this ⊢
          omega

/-! ### Claims C1 and C2 -/

/-- Concrete 4-by-4 board exercising a full drain in which forward-checking
failures bump the backtrack counter without creating nodes. -/
def board_c1 : List (List Nat) :=
  [[0, 0, 0, 4], [0, 3, 0, 0], [0, 0, 0, 0], [0, 0, 3, 0]]

/-- Engine over `board_c1`. -/
def csp_c1 : SudokuCSP := mkSudokuCSP 4 (some board_c1)

/-- C1 counterexample: on `board_c1` the fully drained default search ends
with `nodes = 3`, `backtracks = 4` and `solutions = 0`, so the claimed
invariant `nodes ≥ backtracks` fails (`fc_fail` increments `backtracks`
without a recursive node). -/
theorem C1_counterexample :
    (csp_c1.backtrack_default 20).map
      (fun r => (r.2, decide (r.2.nodes ≥ r.2.backtracks))) =
      some ({ nodes := 3, backtracks := 4, solutions := 0 }, false) := by
  rfl

/-- C1 amended: after any full drain of `backtrack_generator` from the
default entry (initial domains, empty assignment, freshly reset
statistics), `nodes ≥ solutions` holds; the other claimed inequality
`nodes ≥ backtracks` is refuted by `C1_counterexample`. -/
theorem C1_nodes_ge_solutions (csp : SudokuCSP) (fuel : Nat)
    (r : List SEvent × Stats) (h : csp.backtrack_default fuel = some r) :
    r.2.nodes ≥ r.2.solutions := by
  have := @btFuel_stats csp fuel csp.initial_domains []
    { nodes := 0, backtracks := 0, solutions := 0 } r h
  dsimp only at this
  omega

/-- Fully drained default search over the 1-by-1 board `[[0]]`. -/
def run1x1 : List SEvent × Stats :=
  ([SEvent.mrv (0, 0) [1], SEvent.lcv (0, 0) [1],
    SEvent.assign (0, 0) 1 [((0, 0), 1)], SEvent.fc_ok (0, 0) 1 [((0, 0), [])],
    SEvent.solution [((0, 0), 1)], SEvent.unassign (0, 0) []],
   { nodes := 2, backtracks := 1, solutions := 1 })

/-- Witness for `C1_nodes_ge_solutions` on a drained 1-by-1 board. -/
theorem C1_nodes_ge_solutions_witness :
    (mkSudokuCSP 1 (some [[0]])).backtrack_default 3 = some run1x1 ∧
      run1x1.2.nodes ≥ run1x1.2.solutions :=
  ⟨by rfl, C1_nodes_ge_solutions (mkSudokuCSP 1 (some [[0]])) 3 run1x1 (by rfl)⟩

/-- C2 counterexample: `size = 8` has no integer square root, yet
construction does not fail: it produces an engine whose box size is the
truncated square root 2 (with `2 * 2 ≠ 8`) and a fully populated variable
set of 64 empty cells. -/
theorem C2_counterexample :
    (mkSudokuCSP 8 none).box_size = 2 ∧ 2 * 2 ≠ 8 ∧
      (mkSudokuCSP 8 none).vars.length = 64 := by
  refine ⟨by rfl, by decide, by rfl⟩

/-- C2 amended: construction never fails for any size; the box size is
always the truncated square root of `size`, and for sizes without an
integer square root the engine silently proceeds with that miscomputed box
size. -/
theorem C2_amended (size : Nat) (ob : Option (List (List Nat))) :
    (mkSudokuCSP size ob).box_size = Nat.sqrt size ∧
      (mkSudokuCSP size ob).size = size :=
  ⟨intSqrt_eq_sqrt size, rfl⟩

/-! ### Basic facts about the constructor and the dictionaries -/

/-- Membership in the constructor's variable list: exactly the in-range
empty cells. -/
theorem mem_initVars {size : Nat} {board : List (List Nat)} {v : Var} :
    v ∈ initVars size board ↔
      v.1 < size ∧ v.2 < size ∧ getCell board v.1 v.2 = 0 := by
  obtain ⟨r, c⟩ := v
  simp only [initVars, List.mem_flatMap, List.mem_filterMap, List.mem_range]
  constructor
  · rintro ⟨r', hr', c', hc', h⟩
    by_cases h0 : getCell board r' c' = 0
    · rw [if_pos h0] at h
      cases h
      exact ⟨hr', hc', h0⟩
    · rw [if_neg h0] at h
      cases h
  · rintro ⟨hr, hc, h0⟩
    exact ⟨r, hr, c, hc, by simp [h0]⟩

/-- The constructor's variable list has no duplicates. -/
theorem initVars_nodup (size : Nat) (board : List (List Nat)) :
    (initVars size board).Nodup := by
  rw [initVars, List.nodup_flatMap]
  constructor
  · intro r _
    apply List.Nodup.filterMap
    · intro c c' v hv hv'
      by_cases h0 : getCell board r c = 0
      · rw [if_pos h0] at hv
        by_cases h0' : getCell board r c' = 0
        · rw [if_pos h0'] at hv'
          cases hv
          cases hv'
          rfl
        · rw [if_neg h0'] at hv'
          cases hv'
      · rw [if_neg h0] at hv
        cases hv
    · exact List.nodup_range size
  · apply List.Pairwise.imp ?_ (List.pairwise_lt_range size)
    intro r r' hlt
    intro v hv hv'
    simp only [List.mem_filterMap] at hv hv'
    obtain ⟨c, _, h⟩ := hv
    obtain ⟨c', _, h'⟩ := hv'
    by_cases h0 : getCell board r c = 0
    · rw [if_pos h0] at h
      by_cases h0' : getCell board r' c' = 0
      · rw [if_pos h0'] at h'
        cases h
        cases h'
        exact absurd rfl (Nat.ne_of_lt hlt)
      · rw [if_neg h0'] at h'
        cases h'
    · rw [if_neg h0] at h
      cases h

/-- Variables of a constructed engine are the in-range empty cells of the
(copied) board. -/
theorem mem_vars_mk {size : Nat} {ob : Option (List (List Nat))} {v : Var} :
    v ∈ (mkSudokuCSP size ob).vars ↔
      v.1 < size ∧ v.2 < size ∧ getCell (boardOfOpt size ob) v.1 v.2 = 0 :=
  mem_initVars

/-- Variable list of a constructed engine has no duplicates. -/
theorem vars_nodup_mk (size : Nat) (ob : Option (List (List Nat))) :
    (mkSudokuCSP size ob).vars.Nodup :=
  initVars_nodup size (boardOfOpt size ob)

/-- Characterisation of a failed dictionary lookup. -/
theorem lookupA_eq_none {a : Assignment} {v : Var} :
    lookupA a v = none ↔ ∀ p ∈ a, p.1 ≠ v := by
  induction a with
  | nil => simp [lookupA]
  | cons p rest ih =>
    obtain ⟨k, x⟩ := p
    by_cases h : k = v
    · simp [lookupA, h]
    · simp [lookupA, h, ih]

/-- Characterisation of a successful dictionary lookup. -/
theorem lookupA_isSome {a : Assignment} {v : Var} :
    (lookupA a v).isSome = true ↔ ∃ x, (v, x) ∈ a := by
  induction a with
  | nil => simp [lookupA]
  | cons p rest ih =>
    obtain ⟨k, x⟩ := p
    by_cases h : k = v
    · subst h
      simp [lookupA]
    · simp only [lookupA, if_neg h, ih, List.mem_cons]
      constructor
      · rintro ⟨y, hy⟩
        exact ⟨y, Or.inr hy⟩
      · rintro ⟨y, hy | hy⟩
        · cases hy
          exact absurd rfl h
        · exact ⟨y, hy⟩

/-- Lookup of a member entry when the keys are unique. -/
theorem lookupA_of_mem {a : Assignment} {v : Var} {x : Nat}
    (hnd : (a.map Prod.fst).Nodup) (hm : (v, x) ∈ a) :
    lookupA a v = some x := by
  induction a with
  | nil => cases hm
  | cons p rest ih =>
    obtain ⟨k, y⟩ := p
    simp only [List.map_cons, List.nodup_cons] at hnd
    rcases List.mem_cons.mp hm with h | h
    · cases h
      simp [lookupA]
    · have hk : k ≠ v := by
        intro hkv
        subst hkv
        exact hnd.1 (List.mem_map.mpr ⟨(k, x), h, rfl⟩)
      simpa [lookupA, hk] using ih hnd.2 h

/-- Lookup in an extended dictionary. -/
theorem lookupA_append_single {a : Assignment} {k v : Var} {x : Nat} :
    lookupA (a ++ [(k, x)]) v =
      match lookupA a v with
      | some y => some y
      | none => if k = v then some x else none := by
  induction a with
  | nil => simp [lookupA]
  | cons p rest ih =>
    obtain ⟨k', y⟩ := p
    by_cases h : k' = v <;> simp [lookupA, h, ih]

/-- Setting an absent key appends the new entry. -/
theorem dictSet_of_none {a : Assignment} {k : Var} {x : Nat}
    (h : lookupA a k = none) : dictSet a k x = a ++ [(k, x)] := by
  simp [dictSet, h]

/-- Deleting a key that is absent from the front part removes exactly the
appended entry. -/
theorem dictDel_append_single {a : Assignment} {k : Var} {x : Nat}
    (h : lookupA a k = none) : dictDel (a ++ [(k, x)]) k = a := by
  rw [dictDel, List.filter_append]
  have h1 : a.filter (fun p => decide (p.1 ≠ k)) = a := by
    apply List.filter_eq_self.mpr
    intro p hp
    exact decide_eq_true (lookupA_eq_none.mp h p hp)
  have h2 : List.filter (fun p => decide (p.1 ≠ k)) [(k, x)] = [] := by simp
  rw [h1, h2, List.append_nil]

/-- The result of the Python `min` scan is one of the candidates. -/
theorem minByKey_mem (key : Var → Nat × Nat) :
    ∀ (best : Var) (l : List Var), minByKey key best l ∈ best :: l := by
  intro best l
  induction l generalizing best with
  | nil => simp [minByKey]
  | cons v rest ih =>
    rw [minByKey]
    by_cases h : keyLt (key v) (key best) = true
    · rw [if_pos h]
      rcases List.mem_cons.mp (ih v) with h' | h'
      · rw [h']
        simp
      · simp [h']
    · rw [if_neg h]
      rcases List.mem_cons.mp (ih best) with h' | h'
      · rw [h']
        simp
      · simp [h']

/-! ### Selection and termination measure -/

/-- A selected variable is an unassigned member of the engine's variable
list. -/
theorem select_mem {csp : SudokuCSP} {domains : Domains} {assignment : Assignment}
    {var : Var} (h : csp.select_unassigned_var domains assignment = some var) :
    var ∈ csp.vars ∧ lookupA assignment var = none := by
  rw [SudokuCSP.select_unassigned_var] at h
  rcases hf : csp.vars.filter (fun v => (lookupA assignment v).isNone) with _ | ⟨v, rest⟩
  · rw [hf] at h
    cases h
  · rw [hf] at h
    simp only [Option.some.injEq] at h
    subst h
    have hm := minByKey_mem
      (fun u => ((domains u).length, csp.count_constraints u assignment)) v rest
    have hmem : minByKey (fun u => ((domains u).length, csp.count_constraints u assignment))
        v rest ∈ csp.vars.filter (fun v => (lookupA assignment v).isNone) := by
      rw [hf]
      exact hm
    have hmf := List.mem_filter.mp hmem
    exact ⟨hmf.1, Option.isNone_iff_eq_none.mp hmf.2⟩

/-- Selection succeeds whenever some variable is unassigned. -/
theorem select_isSome_of {csp : SudokuCSP} {domains : Domains} {assignment : Assignment}
    (v : Var) (hv : v ∈ csp.vars) (hun : lookupA assignment v = none) :
    (csp.select_unassigned_var domains assignment).isSome := by
  rw [SudokuCSP.select_unassigned_var]
  rcases hf : csp.vars.filter (fun v => (lookupA assignment v).isNone) with _ | ⟨w, rest⟩
  · exfalso
    have : v ∈ csp.vars.filter (fun v => (lookupA assignment v).isNone) :=
      List.mem_filter.mpr ⟨hv, by simp [hun]⟩
    rw [hf] at this
    cases this
  · rfl

/-- Number of variables not yet assigned, the termination measure of the
recursion. -/
def unassignedCount (csp : SudokuCSP) (assignment : Assignment) : Nat :=
  (csp.vars.filter (fun v => (lookupA assignment v).isNone)).length

/-- Assigning a fresh variable strictly shrinks the termination measure. -/
theorem unassignedCount_append {csp : SudokuCSP} {assignment : Assignment}
    {var : Var} {x : Nat} (hnd : csp.vars.Nodup) (hv : var ∈ csp.vars)
    (hun : lookupA assignment var = none) :
    unassignedCount csp (assignment ++ [(var, x)]) < unassignedCount csp assignment := by
  have hfe : csp.vars.filter (fun v => (lookupA (assignment ++ [(var, x)]) v).isNone) =
      (csp.vars.filter (fun v => (lookupA assignment v).isNone)).filter
        (fun v => v != var) := by
    rw [List.filter_filter]
    apply List.filter_congr
    intro v _
    rw [lookupA_append_single]
    rcases h : lookupA assignment v with _ | y
    · by_cases hvv : var = v
      · subst hvv
        simp
      · simp [hvv, Ne.symm hvv]
    · simp
  have hvmem : var ∈ csp.vars.filter (fun v => (lookupA assignment v).isNone) :=
    List.mem_filter.mpr ⟨hv, by simp [hun]⟩
  have hlnd : (csp.vars.filter (fun v => (lookupA assignment v).isNone)).Nodup :=
    hnd.filter _
  rw [unassignedCount, unassignedCount, hfe, ← List.Nodup.erase_eq_filter hlnd]
  have hlen := List.length_erase_of_mem hvmem
  have hpos := List.length_pos_of_mem hvmem
  omega

/-- The value loop returns a value whenever every recursive call it can
make does. -/
theorem btLoop_isSome {csp : SudokuCSP} {var : Var}
    {child : Domains → Assignment → Stats → Option (List SEvent × Stats)}
    {assignment : Assignment} (hun : lookupA assignment var = none)
    (hchild : ∀ d x s, (child d (assignment ++ [(var, x)]) s).isSome) :
    ∀ (values : List Nat) (domains : Domains) (s : Stats),
      (btLoop csp var child values domains assignment s).isSome := by
  intro values
  induction values with
  | nil => intro d s; simp [btLoop]
  | cons value rest ih =>
    intro d s
    rw [btLoop]
    by_cases hc : csp.is_consistent var value assignment
    · rw [if_pos hc]
      have ha1 : dictSet assignment var value = assignment ++ [(var, value)] :=
        dictSet_of_none hun
      have ha2 : dictDel (dictSet assignment var value) var = assignment := by
        rw [ha1]
        exact dictDel_append_single hun
      rcases hfc : csp.forward_check var value d with ⟨o, removed⟩
      rcases o with _ | nd
      · rcases hl : btLoop csp var child rest d assignment
            { s with backtracks := s.backtracks + 1 } with _ | ⟨evs, s'⟩
        · have := ih d { s with backtracks := s.backtracks + 1 }
          rw [hl] at this
          simp at this
        · simp [ha2, hl]
      · rcases hch : child nd (dictSet assignment var value) s with _ | ⟨cevs, s2⟩
        · have := hchild nd value s
          rw [← ha1, hch] at this
          simp at this
        · rcases hl : btLoop csp var child rest d assignment
              { s2 with backtracks := s2.backtracks + 1 } with _ | ⟨evs, s'⟩
          · have := ih d { s2 with backtracks := s2.backtracks + 1 }
            rw [hl] at this
            simp at this
          · simp [hch, ha2, hl]
    · rw [if_neg hc]
      rcases hl : btLoop csp var child rest d assignment s with _ | ⟨evs, s'⟩
      · have := ih d s
        rw [hl] at this
        simp at this
      · simp [hl]

/-- The drained generator returns a value once the fuel exceeds the number
of unassigned variables, for any assignment with unique keys drawn from
the variable list. -/
theorem btFuel_isSome {csp : SudokuCSP} (hnd : csp.vars.Nodup) :
    ∀ (fuel : Nat) {domains : Domains} {assignment : Assignment} {s : Stats},
      (assignment.map Prod.fst).Nodup → (∀ p ∈ assignment, p.1 ∈ csp.vars) →
      unassignedCount csp assignment < fuel →
      (btFuel csp fuel domains assignment s).isSome := by
  intro fuel
  induction fuel with
  | zero =>
    intro d a s _ _ h
    cases h
  | succ fuel ih =>
    intro d a s hknd hksub hcount
    rw [btFuel]
    by_cases hterm : a.length = csp.vars.length
    · rw [if_pos hterm]
      rfl
    · rw [if_neg hterm]
      have hex : ∃ v ∈ csp.vars, lookupA a v = none := by
        by_contra hno
        push_neg at hno
        apply hterm
        have hsub2 : ∀ v ∈ csp.vars, v ∈ a.map Prod.fst := by
          intro v hv
          rcases h : lookupA a v with _ | x
          · exact absurd h (hno v hv)
          · obtain ⟨x', hx⟩ := lookupA_isSome.mp (by rw [h]; rfl)
            exact List.mem_map.mpr ⟨(v, x'), hx, rfl⟩
        have hle1 : (a.map Prod.fst).length ≤ csp.vars.length :=
          (List.Nodup.subperm hknd (fun v hv => by
            obtain ⟨p, hp, rfl⟩ := List.mem_map.mp hv
            exact hksub p hp)).length_le
        have hle2 : csp.vars.length ≤ (a.map Prod.fst).length :=
          (List.Nodup.subperm hnd hsub2).length_le
        have : (a.map Prod.fst).length = a.length := List.length_map ..
        omega
      obtain ⟨v, hv, hun⟩ := hex
      have hsel := @select_isSome_of csp d a v hv hun
      rcases hs : csp.select_unassigned_var d a with _ | var
      · rw [hs] at hsel
        cases hsel
      · obtain ⟨hvm, hvun⟩ := select_mem hs
        have hchild : ∀ d' x s',
            (btFuel csp fuel d' (a ++ [(var, x)]) s').isSome := by
          intro d' x s'
          apply ih
          · rw [List.map_append, List.nodup_append]
            refine ⟨hknd, List.nodup_singleton _, ?_⟩
            intro u hu hu'
            obtain ⟨p, hp, rfl⟩ := List.mem_map.mp hu
            simp only [List.map_cons, List.map_nil, List.mem_singleton] at hu'
            exact lookupA_eq_none.mp hvun p hp hu'
          · intro p hp
            rcases List.mem_append.mp hp with h | h
            · exact hksub p h
            · simp only [List.mem_singleton] at h
              subst h
              exact hvm
          · have := @unassignedCount_append csp a var x hnd hvm hvun
            omega
        have hloop := @btLoop_isSome csp var
          (fun nd a1 s2 => btFuel csp fuel nd a1 s2) a hvun hchild
          (csp.order_domain_values var d a) d { s with nodes := s.nodes + 1 }
        rcases hl : btLoop csp var (fun nd a1 s2 => btFuel csp fuel nd a1 s2)
            (csp.order_domain_values var d a) d a { s with nodes := s.nodes + 1 }
            with _ | ⟨evs, s'⟩
        · rw [hl] at hloop
          cases hloop
        · simp [hl]

/-- Monotonicity of the value loop in the recursive call: a stronger child
reproduces the same result. -/
theorem btLoop_mono {csp : SudokuCSP} {var : Var}
    {child1 child2 : Domains → Assignment → Stats → Option (List SEvent × Stats)}
    (h12 : ∀ d a s r, child1 d a s = some r → child2 d a s = some r) :
    ∀ {values : List Nat} {domains assignment s r},
      btLoop csp var child1 values domains assignment s = some r →
      btLoop csp var child2 values domains assignment s = some r := by
  intro values
  induction values with
  | nil =>
    intro d a s r h
    simpa [btLoop] using h
  | cons value rest ih =>
    intro d a s r h
    rw [btLoop] at h ⊢
    by_cases hc : csp.is_consistent var value a
    · rw [if_pos hc] at h ⊢
      rcases hfc : csp.forward_check var value d with ⟨o, removed⟩
      rw [hfc] at h
      rcases o with _ | nd
      all_goals dsimp only at h ⊢
      · rcases hl : btLoop csp var child1 rest d (dictDel (dictSet a var value) var)
            { s with backtracks := s.backtracks + 1 } with _ | ⟨evs, s'⟩
        · rw [hl] at h
          simp at h
        · rw [hl] at h
          rw [ih hl]
          exact h
      · rcases hch : child1 nd (dictSet a var value) s with _ | ⟨cevs, s2⟩
        · rw [hch] at h
          simp at h
        · rw [hch] at h
          rw [h12 _ _ _ _ hch]
          dsimp only at h ⊢
          rcases hl : btLoop csp var child1 rest d (dictDel (dictSet a var value) var)
              { s2 with backtracks := s2.backtracks + 1 } with _ | ⟨evs, s'⟩
          · rw [hl] at h
            simp at h
          · rw [hl] at h
            rw [ih hl]
            exact h
    · rw [if_neg hc] at h ⊢
      rcases hl : btLoop csp var child1 rest d a s with _ | ⟨evs, s'⟩
      · rw [hl] at h
        simp at h
      · rw [hl] at h
        rw [ih hl]
        exact h

/-- Monotonicity of the drained generator in the fuel: once it returns a
value, any larger fuel returns the same value. -/
theorem btFuel_mono {csp : SudokuCSP} :
    ∀ {fuel fuel' : Nat}, fuel ≤ fuel' →
      ∀ {d : Domains} {a : Assignment} {s : Stats} {r},
        btFuel csp fuel d a s = some r → btFuel csp fuel' d a s = some r := by
  intro fuel
  induction fuel with
  | zero =>
    intro fuel' _ d a s r h
    simp [btFuel] at h
  | succ fuel ih =>
    intro fuel' hle d a s r h
    rcases fuel' with _ | fuel''
    · exact absurd hle (by omega)
    · have hle' : fuel ≤ fuel'' := Nat.succ_le_succ_iff.mp hle
      rw [btFuel] at h ⊢
      by_cases hterm : a.length = csp.vars.length
      · rw [if_pos hterm] at h ⊢
        exact h
      · rw [if_neg hterm] at h ⊢
        rcases hs : csp.select_unassigned_var d a with _ | var
        · rw [hs] at h
          simp at h
        · rw [hs] at h
          dsimp only at h ⊢
          rcases hl : btLoop csp var (fun nd a1 s2 => btFuel csp fuel nd a1 s2)
              (csp.order_domain_values var d a) d a { s with nodes := s.nodes + 1 }
              with _ | ⟨evs, s'⟩
          · rw [hl] at h
            simp at h
          · rw [hl] at h
            rw [btLoop_mono (fun d1 a1 s1 r1 hr => ih hle' hr) hl]
            exact h

/-- Shape of a well-formed input board. -/
def boardShaped (size : Nat) (board : List (List Nat)) : Prop :=
  board.length = size ∧ ∀ row ∈ board, row.length = size

/-- On the empty assignment every variable is unassigned. -/
theorem unassignedCount_nil (csp : SudokuCSP) :
    unassignedCount csp [] = csp.vars.length := by
  rw [unassignedCount]
  have : csp.vars.filter (fun v => (lookupA [] v).isNone) = csp.vars :=
    List.filter_eq_self.mpr (fun v _ => rfl)
  rw [this]

/-! ### Claim C9 -/

/-- C9: for every well-formed board, the default full drain of
`backtrack_generator` is finite: it is produced completely with fuel
`|variables| + 1` (each recursive call strictly grows the assignment inside
the finite variable set), and any larger fuel yields the identical event
sequence and statistics. -/
theorem C9_terminates (size : Nat) (board : List (List Nat))
    (hshape : boardShaped size board) :
    ((mkSudokuCSP size (some board)).backtrack_default
        (solveBound (mkSudokuCSP size (some board)))).isSome ∧
      ∀ fuel r, solveBound (mkSudokuCSP size (some board)) ≤ fuel →
        (mkSudokuCSP size (some board)).backtrack_default
          (solveBound (mkSudokuCSP size (some board))) = some r →
        (mkSudokuCSP size (some board)).backtrack_default fuel = some r := by
  constructor
  · apply btFuel_isSome (vars_nodup_mk size (some board))
    · exact List.nodup_nil
    · intro p hp
      cases hp
    · rw [unassignedCount_nil, solveBound]
      omega
  · intro fuel r hle h
    exact btFuel_mono hle h

/-- Witness for `C9_terminates` on the 1-by-1 board. -/
theorem C9_terminates_witness :
    ((mkSudokuCSP 1 (some [[0]])).backtrack_default
        (solveBound (mkSudokuCSP 1 (some [[0]])))).isSome :=
  (C9_terminates 1 [[0]] (by constructor <;> simp)).1

/-! ### Claim C5: MRV selection -/

/-- The key order is irreflexive. -/
theorem keyLt_irrefl (a : Nat × Nat) : keyLt a a = false := by
  simp [keyLt]

/-- Order fact: if `w < b` and not `w < r`, then not `b < r`. -/
theorem keyLt_fact1 {w b r : Nat × Nat} (h1 : keyLt w b = true)
    (h2 : keyLt w r = false) : keyLt b r = false := by
  simp only [keyLt, Bool.or_eq_true, Bool.and_eq_true, decide_eq_true_eq, beq_iff_eq,
    Bool.or_eq_false_iff, Bool.and_eq_false_iff, decide_eq_false_iff_not,
    beq_eq_false_iff_ne] at h1 h2 ⊢
  omega

/-- Order fact: if not `a < b` and not `b < c`, then not `a < c`. -/
theorem keyLt_fact2 {a b c : Nat × Nat} (h1 : keyLt a b = false)
    (h2 : keyLt b c = false) : keyLt a c = false := by
  simp only [keyLt, Bool.or_eq_false_iff, Bool.and_eq_false_iff,
    decide_eq_false_iff_not, beq_eq_false_iff_ne] at h1 h2 ⊢
  omega

/-- No candidate compares strictly below the result of the `min` scan. -/
theorem minByKey_notLt (key : Var → Nat × Nat) :
    ∀ (l : List Var) (best v : Var), v ∈ best :: l →
      keyLt (key v) (key (minByKey key best l)) = false := by
  intro l
  induction l with
  | nil =>
    intro best v hv
    rcases List.mem_cons.mp hv with rfl | hv'
    · exact keyLt_irrefl _
    · cases hv'
  | cons w rest ih =>
    intro best v hv
    rw [minByKey]
    by_cases hwb : keyLt (key w) (key best) = true
    · rw [if_pos hwb]
      rcases List.mem_cons.mp hv with rfl | hv'
      · exact keyLt_fact1 hwb (ih w w (List.mem_cons_self w rest))
      · exact ih w v hv'
    · rw [if_neg hwb]
      rcases List.mem_cons.mp hv with rfl | hv'
      · exact ih v v (List.mem_cons_self v rest)
      · rcases List.mem_cons.mp hv' with rfl | hv''
        · exact keyLt_fact2 (Bool.eq_false_iff.mpr hwb)
            (ih best best (List.mem_cons_self best rest))
        · exact ih best v (List.mem_cons_of_mem best hv'')

/-- C5: whenever at least one variable is unassigned, selection succeeds,
and the selected variable is an unassigned variable whose current domain
size is minimal among all unassigned variables, with the degree (count of
other unassigned variables sharing its row, column or box) maximal among
the minimal-domain candidates. -/
theorem C5_select_mrv_degree (csp : SudokuCSP) (domains : Domains)
    (assignment : Assignment)
    (hex : ∃ v ∈ csp.vars, lookupA assignment v = none) :
    (csp.select_unassigned_var domains assignment).isSome ∧
      ∀ var, csp.select_unassigned_var domains assignment = some var →
        var ∈ csp.vars ∧ lookupA assignment var = none ∧
        (∀ v ∈ csp.vars, lookupA assignment v = none →
          (domains var).length ≤ (domains v).length) ∧
        (∀ v ∈ csp.vars, lookupA assignment v = none →
          (domains v).length = (domains var).length →
          csp.count_constraints v assignment ≤ csp.count_constraints var assignment) := by
  obtain ⟨v0, hv0, hun0⟩ := hex
  refine ⟨select_isSome_of v0 hv0 hun0, ?_⟩
  intro var hs
  obtain ⟨hvm, hvun⟩ := select_mem hs
  have hkey : ∀ v ∈ csp.vars, lookupA assignment v = none →
      keyLt ((domains v).length, csp.count_constraints v assignment)
        ((domains var).length, csp.count_constraints var assignment) = false := by
    intro v hv hun
    rw [SudokuCSP.select_unassigned_var] at hs
    rcases hf : csp.vars.filter (fun v => (lookupA assignment v).isNone) with _ | ⟨w, rest⟩
    · have : v0 ∈ csp.vars.filter (fun v => (lookupA assignment v).isNone) :=
        List.mem_filter.mpr ⟨hv0, by simp [hun0]⟩
      rw [hf] at this
      cases this
    · rw [hf] at hs
      simp only [Option.some.injEq] at hs
      have hvmem : v ∈ csp.vars.filter (fun v => (lookupA assignment v).isNone) :=
        List.mem_filter.mpr ⟨hv, by simp [hun]⟩
      rw [hf] at hvmem
      have := minByKey_notLt
        (fun u => ((domains u).length, csp.count_constraints u assignment)) rest w v hvmem
      rw [hs] at this
      exact this
  refine ⟨hvm, hvun, ?_, ?_⟩
  · intro v hv hun
    have := hkey v hv hun
    simp only [keyLt, Bool.or_eq_false_iff, Bool.and_eq_false_iff,
      decide_eq_false_iff_not, beq_eq_false_iff_ne] at this
    omega
  · intro v hv hun heq
    have := hkey v hv hun
    simp only [keyLt, Bool.or_eq_false_iff, Bool.and_eq_false_iff,
      decide_eq_false_iff_not, beq_eq_false_iff_ne] at this
    omega

/-- Witness for `C5_select_mrv_degree`: on the engine over `board_c1` with
the empty assignment, the scan selects `(0, 0)`, a minimal-domain,
maximal-degree unassigned variable. -/
theorem C5_select_mrv_degree_witness :
    (0, 0) ∈ csp_c1.vars ∧ lookupA [] (0, 0) = none ∧
      (∀ v ∈ csp_c1.vars, lookupA [] v = none →
        (csp_c1.initial_domains (0, 0)).length ≤ (csp_c1.initial_domains v).length) ∧
      (∀ v ∈ csp_c1.vars, lookupA [] v = none →
        (csp_c1.initial_domains v).length = (csp_c1.initial_domains (0, 0)).length →
        csp_c1.count_constraints v [] ≤ csp_c1.count_constraints (0, 0) []) :=
  (C5_select_mrv_degree csp_c1 csp_c1.initial_domains []
    ⟨(0, 0), by decide, rfl⟩).2 (0, 0) (by decide)

/-! ### Claim C6: consistency check -/

/-- Cells scanned by the box loop of `is_consistent` are exactly the cells
of `var`'s box. -/
theorem is_consistent_false_iff {csp : SudokuCSP}
    (hsq : csp.box_size * csp.box_size = csp.size) {var : Var}
    (hr : var.1 < csp.size) (hc : var.2 < csp.size)
    (value : Nat) (assignment : Assignment) :
    csp.is_consistent var value assignment = false ↔
      ∃ u : Var, u.1 < csp.size ∧ u.2 < csp.size ∧
        sharesUnit csp.box_size u var = true ∧
        lookupA assignment u = some value := by
  have hbs : 0 < csp.box_size := by
    rcases Nat.eq_zero_or_pos csp.box_size with h | h
    · rw [h, Nat.zero_mul] at hsq
      omega
    · exact h
  constructor
  · intro h
    simp only [SudokuCSP.is_consistent, Bool.and_eq_false_iff, List.all_eq_false,
      List.mem_range, Bool.not_eq_true, Bool.not_eq_true', Bool.not_eq_false,
      Bool.not_eq_false', beq_iff_eq] at h
    rcases h with (⟨c, hlt, hl⟩ | ⟨r, hlt, hl⟩) | ⟨i, hi, j, hj, hl⟩
    · exact ⟨(var.1, c), hr, hlt, by simp [sharesUnit], hl⟩
    · exact ⟨(r, var.2), hlt, hc, by simp [sharesUnit], hl⟩
    · refine ⟨(var.1 / csp.box_size * csp.box_size + i,
               var.2 / csp.box_size * csp.box_size + j), ?_, ?_, ?_, hl⟩
      · have h1 : var.1 / csp.box_size < csp.box_size := by
          apply Nat.div_lt_of_lt_mul
          rw [hsq]
          exact hr
        calc var.1 / csp.box_size * csp.box_size + i
            < (var.1 / csp.box_size + 1) * csp.box_size := by
              rw [Nat.succ_mul]
              omega
          _ ≤ csp.box_size * csp.box_size := by
              rw [Nat.mul_comm]
              exact Nat.mul_le_mul_left _ h1
          _ = csp.size := hsq
      · have h1 : var.2 / csp.box_size < csp.box_size := by
          apply Nat.div_lt_of_lt_mul
          rw [hsq]
          exact hc
        calc var.2 / csp.box_size * csp.box_size + j
            < (var.2 / csp.box_size + 1) * csp.box_size := by
              rw [Nat.succ_mul]
              omega
          _ ≤ csp.box_size * csp.box_size := by
              rw [Nat.mul_comm]
              exact Nat.mul_le_mul_left _ h1
          _ = csp.size := hsq
      · have hdiv1 : (var.1 / csp.box_size * csp.box_size + i) / csp.box_size =
            var.1 / csp.box_size := by
          rw [Nat.mul_comm, Nat.mul_add_div hbs, Nat.div_eq_of_lt hi, Nat.add_zero]
        have hdiv2 : (var.2 / csp.box_size * csp.box_size + j) / csp.box_size =
            var.2 / csp.box_size := by
          rw [Nat.mul_comm, Nat.mul_add_div hbs, Nat.div_eq_of_lt hj, Nat.add_zero]
        simp [sharesUnit, hdiv1, hdiv2]
  · rintro ⟨⟨u1, u2⟩, hur, huc, hshare, hl⟩
    simp only [sharesUnit, Bool.or_eq_true, Bool.and_eq_true, beq_iff_eq] at hshare
    simp only [SudokuCSP.is_consistent, Bool.and_eq_false_iff, List.all_eq_false,
      List.mem_range, Bool.not_eq_true, Bool.not_eq_true', Bool.not_eq_false,
      Bool.not_eq_false', beq_iff_eq]
    rcases hshare with (hrow | hcol) | ⟨hb1, hb2⟩
    · refine Or.inl (Or.inl ⟨u2, huc, ?_⟩)
      rw [← hrow]
      exact hl
    · refine Or.inl (Or.inr ⟨u1, hur, ?_⟩)
      rw [← hcol]
      exact hl
    · refine Or.inr ⟨u1 % csp.box_size, Nat.mod_lt _ hbs,
        u2 % csp.box_size, Nat.mod_lt _ hbs, ?_⟩
      have h1 : var.1 / csp.box_size * csp.box_size + u1 % csp.box_size = u1 := by
        rw [← hb1, Nat.mul_comm, Nat.div_add_mod]
      have h2 : var.2 / csp.box_size * csp.box_size + u2 % csp.box_size = u2 := by
        rw [← hb2, Nat.mul_comm, Nat.div_add_mod]
      rw [h1, h2]
      exact hl

/-- Standard 9-by-9 engine over the empty board. -/
def csp9 : SudokuCSP := mkSudokuCSP 9 none

/-- C6 counterexample: with `var = (0,0)` itself assigned 5, `is_consistent
(0,0) 5` returns false although no variable other than `var` is assigned at
all, so the claimed biconditional (quantifying over cells other than `var`)
fails: the row/column/box scans of the source include `var`'s own cell. -/
theorem C6_counterexample :
    ¬ (csp9.is_consistent (0, 0) 5 [((0, 0), 5)] = false ↔
        ∃ u : Var, u ≠ (0, 0) ∧ u.1 < 9 ∧ u.2 < 9 ∧
          sharesUnit csp9.box_size u (0, 0) = true ∧
          lookupA [((0, 0), 5)] u = some 5) := by
  intro h
  obtain ⟨u, hne, _, _, _, hl⟩ := h.mp (by decide)
  rw [lookupA] at hl
  by_cases hu : ((0, 0) : Var) = u
  · exact hne hu.symm
  · rw [if_neg hu, lookupA] at hl
    cases hl

/-- C6 amended: for an engine whose size is the square of its box size, an
in-grid `var` and any value and assignment, `is_consistent` returns false
if and only if some in-grid cell sharing `var`'s row, column or box --
possibly `var` itself -- is assigned `value`; the check is a pure function
of its inputs. -/
theorem C6_is_consistent_iff (size : Nat) (ob : Option (List (List Nat)))
    (hsq : (mkSudokuCSP size ob).box_size * (mkSudokuCSP size ob).box_size = size)
    (var : Var) (hr : var.1 < size) (hc : var.2 < size)
    (value : Nat) (assignment : Assignment) :
    (mkSudokuCSP size ob).is_consistent var value assignment = false ↔
      ∃ u : Var, u.1 < size ∧ u.2 < size ∧
        sharesUnit (mkSudokuCSP size ob).box_size u var = true ∧
        lookupA assignment u = some value :=
  is_consistent_false_iff hsq hr hc value assignment

/-- Witness for `C6_is_consistent_iff` on the 9-by-9 engine: cell `(0,1)`
holding 5 shares the row of `(0,0)`. -/
theorem C6_is_consistent_iff_witness :
    ((mkSudokuCSP 9 none).is_consistent (0, 0) 5 [((0, 1), 5)] = false ↔
      ∃ u : Var, u.1 < 9 ∧ u.2 < 9 ∧
        sharesUnit (mkSudokuCSP 9 none).box_size u (0, 0) = true ∧
        lookupA [((0, 1), 5)] u = some 5) :=
  C6_is_consistent_iff 9 none (by decide) (0, 0) (by decide) (by decide) 5 [((0, 1), 5)]

/-! ### Claim C4: forward checking -/

/-- The pruning loop never changes entries outside the processed list,
nor the entry of `var` itself. -/
theorem fcLoop_preserve {csp : SudokuCSP} {var : Var} {value : Nat} :
    ∀ {l : List Var} {nd : Domains} {rm : Removed} {nd' : Domains} {rm' : Removed},
      fcLoop csp var value l nd rm = (some nd', rm') →
      ∀ w, w ∉ l ∨ w = var → nd' w = nd w := by
  intro l
  induction l with
  | nil =>
    intro nd rm nd' rm' h w _
    simp only [fcLoop, Prod.mk.injEq, Option.some.injEq] at h
    rw [h.1]
  | cons u rest ih =>
    intro nd rm nd' rm' h w hw
    rw [fcLoop] at h
    have hwrest : w ∉ rest ∨ w = var := by
      rcases hw with hw | hw
      · exact Or.inl (fun hx => hw (List.mem_cons_of_mem u hx))
      · exact Or.inr hw
    by_cases hu : u = var
    · rw [if_pos hu] at h
      exact ih h w hwrest
    · rw [if_neg hu] at h
      have hwu : w ≠ u := by
        rcases hw with hw | hw
        · intro he
          exact hw (he ▸ List.mem_cons_self u rest)
        · intro he
          exact hu (he ▸ hw)
      by_cases hsh : sharesUnit csp.box_size u var = true
      · rw [if_pos hsh] at h
        by_cases hpres : ((nd u).contains value) = true
        · rw [if_pos hpres] at h
          by_cases hemp : (nd u).erase value = []
          · rw [if_pos hemp] at h
            cases h
          · rw [if_neg hemp] at h
            have := ih h w hwrest
            rw [this, updateF, if_neg hwu]
        · rw [if_neg hpres] at h
          by_cases hemp : nd u = []
          · rw [if_pos hemp] at h
            cases h
          · rw [if_neg hemp] at h
            exact ih h w hwrest
      · rw [if_neg hsh] at h
        exact ih h w hwrest

/-- Failure of the pruning loop exhibits a neighbour whose whole domain is
the assigned value. -/
theorem fcLoop_fail {csp : SudokuCSP} {var : Var} {value : Nat} :
    ∀ {l : List Var} {nd : Domains} {rm rm' : Removed},
      fcLoop csp var value l nd rm = (none, rm') →
      ∃ u ∈ l, u ≠ var ∧ sharesUnit csp.box_size u var = true ∧
        ∀ x ∈ nd u, x = value := by
  intro l
  induction l with
  | nil =>
    intro nd rm rm' h
    simp [fcLoop] at h
  | cons u rest ih =>
    intro nd rm rm' h
    rw [fcLoop] at h
    by_cases hu : u = var
    · rw [if_pos hu] at h
      obtain ⟨w, hw, hprop⟩ := ih h
      exact ⟨w, List.mem_cons_of_mem u hw, hprop⟩
    · rw [if_neg hu] at h
      by_cases hsh : sharesUnit csp.box_size u var = true
      · rw [if_pos hsh] at h
        by_cases hpres : ((nd u).contains value) = true
        · rw [if_pos hpres] at h
          by_cases hemp : (nd u).erase value = []
          · refine ⟨u, List.mem_cons_self u rest, hu, hsh, ?_⟩
            intro x hx
            by_cases hxv : x = value
            · exact hxv
            · exfalso
              have hxe : x ∈ (nd u).erase value := (List.mem_erase_of_ne hxv).mpr hx
              rw [hemp] at hxe
              cases hxe
          · rw [if_neg hemp] at h
            obtain ⟨w, hw, hne, hsh', hall⟩ := ih h
            refine ⟨w, List.mem_cons_of_mem u hw, hne, hsh', ?_⟩
            intro x hx
            by_cases hwu : w = u
            · subst hwu
              by_cases hxv : x = value
              · exact hxv
              · apply hall
                rw [updateF, if_pos rfl]
                exact (List.mem_erase_of_ne hxv).mpr hx
            · apply hall
              rw [updateF, if_neg hwu]
              exact hx
        · rw [if_neg hpres] at h
          by_cases hemp : nd u = []
          · refine ⟨u, List.mem_cons_self u rest, hu, hsh, ?_⟩
            intro x hx
            rw [hemp] at hx
            cases hx
          · rw [if_neg hemp] at h
            obtain ⟨w, hw, hprop⟩ := ih h
            exact ⟨w, List.mem_cons_of_mem u hw, hprop⟩
      · rw [if_neg hsh] at h
        obtain ⟨w, hw, hprop⟩ := ih h
        exact ⟨w, List.mem_cons_of_mem u hw, hprop⟩

/-- Success of the pruning loop removes the assigned value from every
duplicate-free neighbouring domain in the processed list. -/
theorem fcLoop_success_mem {csp : SudokuCSP} {var : Var} {value : Nat} :
    ∀ {l : List Var}, l.Nodup →
      ∀ {nd : Domains} {rm : Removed} {nd' : Domains} {rm' : Removed},
      fcLoop csp var value l nd rm = (some nd', rm') →
      ∀ u ∈ l, u ≠ var → sharesUnit csp.box_size u var = true →
        (nd u).Nodup → value ∉ nd' u := by
  intro l
  induction l with
  | nil =>
    intro _ nd rm nd' rm' h u hu
    cases hu
  | cons v rest ih =>
    intro hnd nd rm nd' rm' h u hu hune hush hdnd
    rw [List.nodup_cons] at hnd
    rw [fcLoop] at h
    by_cases hv : v = var
    · rw [if_pos hv] at h
      rcases List.mem_cons.mp hu with heq | hu'
      · exact absurd (heq.trans hv) hune
      · exact ih hnd.2 h u hu' hune hush hdnd
    · rw [if_neg hv] at h
      by_cases hsh : sharesUnit csp.box_size v var = true
      · rw [if_pos hsh] at h
        by_cases hpres : ((nd v).contains value) = true
        · rw [if_pos hpres] at h
          by_cases hemp : (nd v).erase value = []
          · rw [if_pos hemp] at h
            cases h
          · rw [if_neg hemp] at h
            rcases List.mem_cons.mp hu with heq | hu'
            · subst heq
              have hpre := fcLoop_preserve h u (Or.inl hnd.1)
              rw [hpre, updateF, if_pos rfl]
              intro hmem
              exact ((hdnd.mem_erase_iff).mp hmem).1 rfl
            · have hune_v : u ≠ v := fun he => hnd.1 (he ▸ hu')
              apply ih hnd.2 h u hu' hune hush
              rw [updateF, if_neg hune_v]
              exact hdnd
        · rw [if_neg hpres] at h
          by_cases hemp : nd v = []
          · rw [if_pos hemp] at h
            cases h
          · rw [if_neg hemp] at h
            rcases List.mem_cons.mp hu with heq | hu'
            · subst heq
              have hpre := fcLoop_preserve h u (Or.inl hnd.1)
              rw [hpre]
              intro hmem
              exact hpres (List.elem_eq_true_of_mem hmem)
            · exact ih hnd.2 h u hu' hune hush hdnd
      · rw [if_neg hsh] at h
        rcases List.mem_cons.mp hu with heq | hu'
        · exact absurd (heq ▸ hush) hsh
        · exact ih hnd.2 h u hu' hune hush hdnd

/-- Folds preserve pointwise invariants of domain dictionaries. -/
theorem foldl_domains_preserve {α : Type} {P : Domains → Prop} {step : Domains → α → Domains}
    (hstep : ∀ d a, P d → P (step d a)) :
    ∀ (l : List α) (d : Domains), P d → P (l.foldl step d) := by
  intro l
  induction l with
  | nil => intro d hd; exact hd
  | cons a rest ih =>
    intro d hd
    exact ih (step d a) (hstep d a hd)

/-- Every initial domain of a constructed engine is duplicate-free. -/
theorem initial_domains_nodup (size : Nat) (ob : Option (List (List Nat))) :
    ∀ v, ((mkSudokuCSP size ob).initial_domains v).Nodup := by
  have hbase : ∀ v, ((baseDomains (initVars size (boardOfOpt size ob)) size) v).Nodup := by
    intro v
    rw [baseDomains]
    split
    · exact List.nodup_range' 1 size
    · exact List.nodup_nil
  apply foldl_domains_preserve (P := fun d => ∀ v, (d v).Nodup)
  · intro d r hd
    apply foldl_domains_preserve (P := fun d => ∀ v, (d v).Nodup)
    · intro d c hd
      intro v
      rw [pruneStep]
      split
      · rw [removeConflicts]
        split
        · exact (hd v).erase _
        · exact hd v
      · exact hd v
    · exact hd
  · exact hbase

/-- C4: forward-checking soundness over duplicate-free domain maps.  On
failure some neighbouring variable's domain consists entirely of the
assigned value (so assigning it empties that domain); on success the
returned map pins `var` to `[value]` and no neighbouring variable's
returned domain contains `value`. -/
theorem C4_forward_check (size : Nat) (ob : Option (List (List Nat)))
    (var : Var) (value : Nat) (domains : Domains)
    (hdnd : ∀ v, (domains v).Nodup) :
    (∀ rm, (mkSudokuCSP size ob).forward_check var value domains = (none, rm) →
      ∃ u ∈ (mkSudokuCSP size ob).vars, u ≠ var ∧
        sharesUnit (mkSudokuCSP size ob).box_size u var = true ∧
        ∀ x ∈ domains u, x = value) ∧
    (∀ nd rm, (mkSudokuCSP size ob).forward_check var value domains = (some nd, rm) →
      nd var = [value] ∧
      ∀ u ∈ (mkSudokuCSP size ob).vars, u ≠ var →
        sharesUnit (mkSudokuCSP size ob).box_size u var = true → value ∉ nd u) := by
  constructor
  · intro rm h
    rw [SudokuCSP.forward_check] at h
    obtain ⟨u, hu, hne, hsh, hall⟩ := fcLoop_fail h
    refine ⟨u, hu, hne, hsh, ?_⟩
    intro x hx
    apply hall
    rw [updateF, if_neg hne]
    exact hx
  · intro nd rm h
    rw [SudokuCSP.forward_check] at h
    constructor
    · have := fcLoop_preserve h var (Or.inr rfl)
      rw [this, updateF, if_pos rfl]
    · intro u hu hne hsh
      apply fcLoop_success_mem (vars_nodup_mk size ob) h u hu hne hsh
      rw [updateF, if_neg hne]
      exact hdnd u

/-- Witness for `C4_forward_check` on the 4-by-4 empty-board engine with
its initial domains: both implications are available at `var = (0,0)`,
`value = 1`. -/
theorem C4_forward_check_witness :
    (∀ v, ((mkSudokuCSP 4 none).initial_domains v).Nodup) ∧
      (∀ nd rm, (mkSudokuCSP 4 none).forward_check (0, 0) 1
          (mkSudokuCSP 4 none).initial_domains = (some nd, rm) →
        nd (0, 0) = [1] ∧
        ∀ u ∈ (mkSudokuCSP 4 none).vars, u ≠ (0, 0) →
          sharesUnit (mkSudokuCSP 4 none).box_size u (0, 0) = true → (1 : Nat) ∉ nd u) :=
  ⟨initial_domains_nodup 4 none,
   (C4_forward_check 4 none (0, 0) 1 (mkSudokuCSP 4 none).initial_domains
     (initial_domains_nodup 4 none)).2⟩

/-! ### Reference-level model of the Python heap, for the frame claims.
A store holds the integer-list objects; a reference is an index into the
store; allocation appends; `list.remove` mutates in place through the
reference. -/

/-- Heap of list objects. -/
abbrev Store := List (List Nat)

/-- Dereference (never out of range in well-formed use). -/
def storeGet (st : Store) (r : Nat) : List Nat :=
  st.getD r []

/-- In-place mutation of one object. -/
def storeSet (st : Store) (r : Nat) (l : List Nat) : Store :=
  st.set r l

/-- Allocation of a fresh object, returning the new store and the new
reference. -/
def storeAlloc (st : Store) (l : List Nat) : Store × Nat :=
  (st ++ [l], st.length)

/-- Reference-valued dictionary lookup (used only at present keys). -/
def lookupRef : List (Var × Nat) → Var → Nat
  | [], _ => 0
  | (k, r) :: rest, v => if k = v then r else lookupRef rest v

/-- Rebinding of one key of a reference-valued dictionary. -/
def updateRefs (d : List (Var × Nat)) (k : Var) (r : Nat) : List (Var × Nat) :=
  d.map (fun p => if p.1 = k then (k, r) else p)

/-- The copy `{v: list(domains[v]) for v in domains}`: one fresh object per
key, holding the same elements. -/
def copyDomains : Store → List (Var × Nat) → Store × List (Var × Nat)
  | st, [] => (st, [])
  | st, (v, r) :: rest =>
    match copyDomains (st ++ [storeGet st r]) rest with
    | (st2, rest') => (st2, (v, st.length) :: rest')

/-- Reference-level pruning loop of `forward_check`: `remove` mutates the
copied objects through their references; the original dictionary's objects
are never written. -/
def fcLoopS (csp : SudokuCSP) (var : Var) (value : Nat) :
    List Var → Store → List (Var × Nat) → Removed →
      Store × Option (List (Var × Nat)) × Removed
  | [], st, nd, rm => (st, some nd, rm)
  | u :: rest, st, nd, rm =>
    if u = var then fcLoopS csp var value rest st nd rm
    else if sharesUnit csp.box_size u var then
      if (storeGet st (lookupRef nd u)).contains value then
        if (storeGet st (lookupRef nd u)).erase value = [] then
          (storeSet st (lookupRef nd u) ((storeGet st (lookupRef nd u)).erase value),
           none, updateLs rm u (lookupLs rm u ++ [value]))
        else
          fcLoopS csp var value rest
            (storeSet st (lookupRef nd u) ((storeGet st (lookupRef nd u)).erase value))
            nd (updateLs rm u (lookupLs rm u ++ [value]))
      else
        if storeGet st (lookupRef nd u) = [] then (st, none, rm)
        else fcLoopS csp var value rest st nd rm
    else fcLoopS csp var value rest st nd rm

/-- Reference-level `forward_check`: copy every domain object, allocate the
fresh singleton `[value]` rebound to `var`, then run the pruning loop. -/
def forward_checkS (csp : SudokuCSP) (var : Var) (value : Nat)
    (st : Store) (dref : List (Var × Nat)) :
    Store × Option (List (Var × Nat)) × Removed :=
  match copyDomains st dref with
  | (st1, ndref) =>
    match storeAlloc st1 [value] with
    | (st2, rvar) =>
      fcLoopS csp var value csp.vars st2 (updateRefs ndref var rvar)
        (dref.map (fun p => (p.1, [])))

/-- Appending objects never changes existing objects. -/
theorem storeGet_append {st : Store} {t : List (List Nat)} {r : Nat}
    (h : r < st.length) : storeGet (st ++ t) r = storeGet st r :=
  List.getD_append st t [] r h

/-- Writing one object never changes the others. -/
theorem storeGet_set_ne {st : Store} {r r' : Nat} {l : List Nat}
    (h : r ≠ r') : storeGet (storeSet st r' l) r = storeGet st r := by
  rw [storeGet, storeGet, storeSet]
  simp [List.getD_eq_getElem?_getD, List.getElem?_set_ne (Ne.symm h)]

/-- Specification of the per-key copy: the store only grows, existing
objects keep their values, the key list is unchanged, and every copied
reference is fresh. -/
theorem copyDomains_spec :
    ∀ {d : List (Var × Nat)} {st st' : Store} {d' : List (Var × Nat)},
      copyDomains st d = (st', d') →
      st.length ≤ st'.length ∧
      (∀ r < st.length, storeGet st' r = storeGet st r) ∧
      d'.map Prod.fst = d.map Prod.fst ∧
      (∀ p ∈ d', st.length ≤ p.2) := by
  intro d
  induction d with
  | nil =>
    intro st st' d' h
    simp only [copyDomains, Prod.mk.injEq] at h
    obtain ⟨rfl, rfl⟩ := h
    exact ⟨Nat.le_refl _, fun r _ => rfl, rfl, fun p hp => absurd hp (List.not_mem_nil p)⟩
  | cons q rest ih =>
    intro st st' d' h
    obtain ⟨v, r⟩ := q
    rw [copyDomains] at h
    rcases hrec : copyDomains (st ++ [storeGet st r]) rest with ⟨st2, rest'⟩
    rw [hrec] at h
    simp only [Prod.mk.injEq] at h
    obtain ⟨rfl, rfl⟩ := h
    obtain ⟨hlen, hpres, hkeys, hfresh⟩ := ih hrec
    have hgrow : st.length ≤ st2.length := by
      rw [List.length_append, List.length_singleton] at hlen
      omega
    refine ⟨hgrow, ?_, ?_, ?_⟩
    · intro r' hr'
      rw [hpres r' (by rw [List.length_append]; omega), storeGet_append hr']
    · simp [hkeys]
    · intro p hp
      rcases List.mem_cons.mp hp with rfl | hp'
      · exact Nat.le_refl _
      · have := hfresh p hp'
        rw [List.length_append, List.length_singleton] at this
        omega

/-- A present key looks up to one of its entries. -/
theorem lookupRef_mem :
    ∀ {d : List (Var × Nat)} {v : Var}, v ∈ d.map Prod.fst →
      (v, lookupRef d v) ∈ d := by
  intro d
  induction d with
  | nil =>
    intro v hv
    cases hv
  | cons p rest ih =>
    intro v hv
    obtain ⟨k, r⟩ := p
    by_cases hk : k = v
    · subst hk
      simp [lookupRef]
    · rw [lookupRef, if_neg hk]
      rcases List.mem_map.mp hv with ⟨q, hq, hq1⟩
      rcases List.mem_cons.mp hq with rfl | hq'
      · exact absurd hq1 hk
      · exact List.mem_cons_of_mem _ (ih (List.mem_map.mpr ⟨q, hq', hq1⟩))

/-- Entries after a rebinding are the new binding or old entries. -/
theorem mem_updateRefs {d : List (Var × Nat)} {k : Var} {r : Nat} {p : Var × Nat}
    (hp : p ∈ updateRefs d k r) : p = (k, r) ∨ p ∈ d := by
  rw [updateRefs] at hp
  rcases List.mem_map.mp hp with ⟨q, hq, hq1⟩
  by_cases hqk : q.1 = k
  · rw [if_pos hqk] at hq1
    exact Or.inl hq1.symm
  · rw [if_neg hqk] at hq1
    exact Or.inr (hq1 ▸ hq)

/-- Rebinding keeps the key list. -/
theorem updateRefs_keys (d : List (Var × Nat)) (k : Var) (r : Nat) :
    (updateRefs d k r).map Prod.fst = d.map Prod.fst := by
  rw [updateRefs, List.map_map]
  apply List.map_congr_left
  intro p _
  by_cases hpk : p.1 = k
  · simp [hpk]
  · simp [hpk]

/-- The reference-level pruning loop never writes below a bound that lies
under every reference it can reach. -/
theorem fcLoopS_frame {csp : SudokuCSP} {var : Var} {value : Nat} {N : Nat} :
    ∀ {l : List Var} {st : Store} {nd : List (Var × Nat)} {rm : Removed}
      {st' : Store} {o : Option (List (Var × Nat))} {rm' : Removed},
      (∀ u ∈ l, N ≤ lookupRef nd u) →
      fcLoopS csp var value l st nd rm = (st', o, rm') →
      ∀ r < N, storeGet st' r = storeGet st r := by
  intro l
  induction l with
  | nil =>
    intro st nd rm st' o rm' _ h r _
    simp only [fcLoopS, Prod.mk.injEq] at h
    rw [h.1]
  | cons u rest ih =>
    intro st nd rm st' o rm' hrefs h r hr
    have hrefs' : ∀ w ∈ rest, N ≤ lookupRef nd w :=
      fun w hw => hrefs w (List.mem_cons_of_mem u hw)
    have hru : r ≠ lookupRef nd u := by
      have := hrefs u (List.mem_cons_self u rest)
      omega
    rw [fcLoopS] at h
    by_cases hu : u = var
    · rw [if_pos hu] at h
      exact ih hrefs' h r hr
    · rw [if_neg hu] at h
      by_cases hsh : sharesUnit csp.box_size u var = true
      · rw [if_pos hsh] at h
        by_cases hpres : ((storeGet st (lookupRef nd u)).contains value) = true
        · rw [if_pos hpres] at h
          by_cases hemp : (storeGet st (lookupRef nd u)).erase value = []
          · rw [if_pos hemp] at h
            simp only [Prod.mk.injEq] at h
            rw [← h.1]
            exact storeGet_set_ne hru
          · rw [if_neg hemp] at h
            have hst : ∀ w ∈ rest, N ≤ lookupRef nd w := hrefs'
            have := ih hst h r hr
            rw [this]
            exact storeGet_set_ne hru
        · rw [if_neg hpres] at h
          by_cases hemp : storeGet st (lookupRef nd u) = []
          · rw [if_pos hemp] at h
            simp only [Prod.mk.injEq] at h
            rw [h.1]
          · rw [if_neg hemp] at h
            exact ih hrefs' h r hr
      · rw [if_neg hsh] at h
        exact ih hrefs' h r hr

/-! ### Claim C8: forward_check leaves the caller's domains unchanged -/

/-- C8: at the reference level, `forward_check` never mutates any object
reachable from the caller's domain dictionary: it deep-copies every domain
into fresh objects and mutates only those, on the success and on the
failure path alike.  Hypotheses: the caller's references are live (inside
the store) and the dictionary covers the engine's variables (as in every
call the solver makes). -/
theorem C8_forward_check_frame (csp : SudokuCSP) (var : Var) (value : Nat)
    (st : Store) (dref : List (Var × Nat))
    (hvalid : ∀ p ∈ dref, p.2 < st.length)
    (hkeys : ∀ u ∈ csp.vars, u ∈ dref.map Prod.fst) :
    ∀ st' o rm, forward_checkS csp var value st dref = (st', o, rm) →
      ∀ p ∈ dref, storeGet st' p.2 = storeGet st p.2 := by
  intro st' o rm h p hp
  rw [forward_checkS] at h
  rcases hcopy : copyDomains st dref with ⟨st1, ndref⟩
  rw [hcopy] at h
  obtain ⟨hlen1, hpres1, hkeys1, hfresh1⟩ := copyDomains_spec hcopy
  simp only [storeAlloc] at h
  have hrefs : ∀ u ∈ csp.vars,
      st.length ≤ lookupRef (updateRefs ndref var st1.length) u := by
    intro u hu
    have hukey : u ∈ (updateRefs ndref var st1.length).map Prod.fst := by
      rw [updateRefs_keys, hkeys1]
      exact hkeys u hu
    rcases mem_updateRefs (lookupRef_mem hukey) with heq | hmem'
    · have heq2 : lookupRef (updateRefs ndref var st1.length) u = st1.length :=
        congrArg Prod.snd heq
      omega
    · exact hfresh1 _ hmem'
  have hplt : p.2 < st.length := hvalid p hp
  rw [fcLoopS_frame hrefs h p.2 hplt,
    storeGet_append (Nat.lt_of_lt_of_le hplt hlen1)]
  exact hpres1 p.2 hplt

/-- Caller store of the C8 witness. -/
def st_c8 : Store := [[1, 2], [1, 2], [1, 2], [1, 2]]

/-- Caller domain dictionary of the C8 witness. -/
def dref_c8 : List (Var × Nat) := [((0, 0), 0), ((0, 1), 1), ((1, 0), 2), ((1, 1), 3)]

/-- Witness for `C8_forward_check_frame`: on a concrete 2-by-2 engine with
a four-object store, the caller's first domain object is untouched by the
call. -/
theorem C8_forward_check_frame_witness :
    storeGet (forward_checkS (mkSudokuCSP 2 none) (0, 0) 1 st_c8 dref_c8).1 0 =
      storeGet st_c8 0 :=
  C8_forward_check_frame (mkSudokuCSP 2 none) (0, 0) 1 st_c8 dref_c8
    (by decide) (by decide)
    (forward_checkS (mkSudokuCSP 2 none) (0, 0) 1 st_c8 dref_c8).1
    (forward_checkS (mkSudokuCSP 2 none) (0, 0) 1 st_c8 dref_c8).2.1
    (forward_checkS (mkSudokuCSP 2 none) (0, 0) 1 st_c8 dref_c8).2.2
    rfl ((0, 0), 0) (by decide)

/-! ### Claim C10: the constructor copies the caller's grid -/

/-- The copy `[row[:] for row in initial_board]`: one fresh row object per
row reference. -/
def copyRows : Store → List Nat → Store × List Nat
  | st, [] => (st, [])
  | st, r :: rest =>
    match copyRows (st ++ [storeGet st r]) rest with
    | (st2, rest') => (st2, st.length :: rest')

/-- Reference-level constructor: copy the rows, then build the engine from
the copied objects' values. -/
def mkSudokuCSP_S (size : Nat) (st : Store) (brefs : List Nat) :
    Store × List Nat × SudokuCSP :=
  match copyRows st brefs with
  | (st', brefs') =>
    (st', brefs', mkSudokuCSP size (some (brefs'.map (fun q => storeGet st' q))))

/-- Reference-level `is_valid_puzzle`: construct over the caller's board
and drain the counting loop; the store comes back for inspection. -/
def is_valid_puzzleS (st : Store) (brefs : List Nat) : Store × Bool :=
  match mkSudokuCSP_S brefs.length st brefs with
  | (st', _, csp) =>
    (st',
     match btFuel csp (solveBound csp) csp.initial_domains []
         { nodes := 0, backtracks := 0, solutions := 0 } with
     | none => false
     | some (evs, _) => countSolLoop evs 0)

/-- Reading the object just appended. -/
theorem storeGet_append_last (st : Store) (x : List Nat) :
    storeGet (st ++ [x]) st.length = x := by
  rw [storeGet, List.getD_eq_getElem?_getD, List.getElem?_concat_length]
  rfl

/-- Specification of the row copy: the store only grows, existing objects
keep their values, the copied references are fresh, and the copied objects
hold the same row values provided the caller's references are live. -/
theorem copyRows_spec :
    ∀ {brefs : List Nat} {st st' : Store} {brefs' : List Nat},
      (∀ q ∈ brefs, q < st.length) →
      copyRows st brefs = (st', brefs') →
      st.length ≤ st'.length ∧
      (∀ r < st.length, storeGet st' r = storeGet st r) ∧
      (∀ q ∈ brefs', st.length ≤ q) ∧
      brefs'.map (fun q => storeGet st' q) = brefs.map (fun q => storeGet st q) := by
  intro brefs
  induction brefs with
  | nil =>
    intro st st' brefs' _ h
    simp only [copyRows, Prod.mk.injEq] at h
    obtain ⟨rfl, rfl⟩ := h
    exact ⟨Nat.le_refl _, fun r _ => rfl, fun q hq => absurd hq (List.not_mem_nil q),
      rfl⟩
  | cons r rest ih =>
    intro st st' brefs' hvalid h
    rw [copyRows] at h
    rcases hrec : copyRows (st ++ [storeGet st r]) rest with ⟨st2, rest'⟩
    rw [hrec] at h
    simp only [Prod.mk.injEq] at h
    obtain ⟨rfl, rfl⟩ := h
    have hvrest : ∀ q ∈ rest, q < (st ++ [storeGet st r]).length := by
      intro q hq
      rw [List.length_append, List.length_singleton]
      have := hvalid q (List.mem_cons_of_mem r hq)
      omega
    obtain ⟨hlen, hpres, hfresh, hvals⟩ := ih hvrest hrec
    have hgrow : st.length ≤ st2.length := by
      rw [List.length_append, List.length_singleton] at hlen
      omega
    refine ⟨hgrow, ?_, ?_, ?_⟩
    · intro r' hr'
      rw [hpres r' (by rw [List.length_append]; omega), storeGet_append hr']
    · intro q hq
      rcases List.mem_cons.mp hq with rfl | hq'
      · exact Nat.le_refl _
      · have := hfresh q hq'
        rw [List.length_append, List.length_singleton] at this
        omega
    · rw [List.map_cons, List.map_cons, hvals]
      have hhead : storeGet st2 st.length = storeGet st r := by
        rw [hpres st.length (by rw [List.length_append, List.length_singleton]; omega),
          storeGet_append_last]
      rw [hhead]
      congr 1
      apply List.map_congr_left
      intro q hq
      exact storeGet_append (hvalid q (List.mem_cons_of_mem r hq))

/-- C10: constructing an engine never mutates the caller's grid (the rows
are copied into fresh objects holding the same values); the engine is the
one the pure constructor builds from the caller's values; every engine row
reference is fresh, so any later caller-side write leaves the engine's
rows unchanged; and `is_valid_puzzle` likewise returns the caller's store
with every live object unchanged, computing the pure answer. -/
theorem C10_construct_copies (size : Nat) (st : Store) (brefs : List Nat)
    (hvalid : ∀ q ∈ brefs, q < st.length) :
    (∀ st' brefs' csp, mkSudokuCSP_S size st brefs = (st', brefs', csp) →
      (∀ r < st.length, storeGet st' r = storeGet st r) ∧
      csp = mkSudokuCSP size (some (brefs.map (fun q => storeGet st q))) ∧
      (∀ q ∈ brefs', st.length ≤ q) ∧
      (∀ r x, r < st.length →
        brefs'.map (fun q => storeGet (storeSet st' r x) q) =
          brefs'.map (fun q => storeGet st' q))) ∧
    (∀ st' b, is_valid_puzzleS st brefs = (st', b) →
      (∀ r < st.length, storeGet st' r = storeGet st r) ∧
      b = is_valid_puzzle (brefs.map (fun q => storeGet st q))) := by
  have hmain : ∀ (sz : Nat) (st' : Store) (brefs' : List Nat) (csp : SudokuCSP),
      mkSudokuCSP_S sz st brefs = (st', brefs', csp) →
      (∀ r < st.length, storeGet st' r = storeGet st r) ∧
      csp = mkSudokuCSP sz (some (brefs.map (fun q => storeGet st q))) ∧
      (∀ q ∈ brefs', st.length ≤ q) ∧
      (∀ r x, r < st.length →
        brefs'.map (fun q => storeGet (storeSet st' r x) q) =
          brefs'.map (fun q => storeGet st' q)) := by
    intro sz st' brefs' csp h
    rw [mkSudokuCSP_S] at h
    rcases hcopy : copyRows st brefs with ⟨st2, brefs2⟩
    rw [hcopy] at h
    simp only [Prod.mk.injEq] at h
    obtain ⟨rfl, rfl, rfl⟩ := h
    obtain ⟨hlen, hpres, hfresh, hvals⟩ := copyRows_spec hvalid hcopy
    refine ⟨hpres, by rw [hvals], hfresh, ?_⟩
    intro r x hr
    apply List.map_congr_left
    intro q hq
    have := hfresh q hq
    exact storeGet_set_ne (by omega)
  constructor
  · exact hmain size
  · intro st' b h
    rw [is_valid_puzzleS] at h
    rcases hmk : mkSudokuCSP_S brefs.length st brefs with ⟨st2, brefs2, csp⟩
    rw [hmk] at h
    simp only [Prod.mk.injEq] at h
    obtain ⟨rfl, rfl⟩ := h
    obtain ⟨hpres, hcsp, _, _⟩ := hmain brefs.length st2 brefs2 csp hmk
    · refine ⟨hpres, ?_⟩
      rw [is_valid_puzzle, hcsp]
      simp only [List.length_map, SudokuCSP.backtrack_default]

/-- Witness for `C10_construct_copies`: constructing over a one-cell board
stored at reference 0 leaves the caller's row object unchanged. -/
theorem C10_construct_copies_witness :
    storeGet (mkSudokuCSP_S 1 [[0]] [0]).1 0 = storeGet [[0]] 0 :=
  ((C10_construct_copies 1 [[0]] [0] (by decide)).1
    (mkSudokuCSP_S 1 [[0]] [0]).1 (mkSudokuCSP_S 1 [[0]] [0]).2.1
    (mkSudokuCSP_S 1 [[0]] [0]).2.2 rfl).1 0 (by decide)

/-! ### Grids, completions and the merged grid -/

/-- Value of the merged grid at one cell: the pre-filled value, or the
assigned value for an empty cell. -/
def mergedCell (board : List (List Nat)) (a : Assignment) (r c : Nat) : Nat :=
  if getCell board r c = 0 then (lookupA a (r, c)).getD 0 else getCell board r c

/-- The grid obtained by merging a solution assignment with the board's
pre-filled cells. -/
def mergedGrid (board : List (List Nat)) (N : Nat) (a : Assignment) : List (List Nat) :=
  (List.range N).map (fun r => (List.range N).map (fun c => mergedCell board a r c))

/-- Cells of one box, in row-major order. -/
def boxCells (bs bi bj : Nat) : List Var :=
  ((List.range bs) ×ˢ (List.range bs)).map
    (fun p => (bi * bs + p.1, bj * bs + p.2))

/-- A grid is a solved Sudoku grid: an `N`-by-`N` grid in which every row,
every column and every box is a permutation of `1..N`. -/
def isSudokuGrid (N bs : Nat) (g : List (List Nat)) : Prop :=
  g.length = N ∧ (∀ row ∈ g, row.length = N) ∧
  (∀ r < N, (g.getD r []).Perm (List.range' 1 N)) ∧
  (∀ c < N, ((List.range N).map (fun r => getCell g r c)).Perm (List.range' 1 N)) ∧
  (∀ bi < bs, ∀ bj < bs,
    ((boxCells bs bi bj).map (fun u => getCell g u.1 u.2)).Perm (List.range' 1 N))

/-- A completion of a board: a solved grid agreeing with every pre-filled
cell. -/
def isCompletion (board : List (List Nat)) (N bs : Nat) (g : List (List Nat)) : Prop :=
  isSudokuGrid N bs g ∧
  ∀ r < N, ∀ c < N, getCell board r c ≠ 0 → getCell g r c = getCell board r c

/-- A duplicate-free list of `N` values inside `1..N` is a permutation of
`1..N`. -/
theorem perm_range'_of_nodup {l : List Nat} {N : Nat} (hlen : l.length = N)
    (hmem : ∀ x ∈ l, 1 ≤ x ∧ x ≤ N) (hnd : l.Nodup) :
    l.Perm (List.range' 1 N) := by
  refine List.Subperm.perm_of_length_le (List.subperm_of_subset hnd ?_) ?_
  · intro x hx
    rw [List.mem_range'_1]
    have := hmem x hx
    omega
  · rw [List.length_range']
    omega

/-- The merged grid has `N` rows. -/
theorem mergedGrid_length (board : List (List Nat)) (N : Nat) (a : Assignment) :
    (mergedGrid board N a).length = N := by
  rw [mergedGrid, List.length_map, List.length_range]

/-- Row `r` of the merged grid. -/
theorem mergedGrid_row {board : List (List Nat)} {N : Nat} {a : Assignment}
    {r : Nat} (hr : r < N) :
    (mergedGrid board N a).getD r [] =
      (List.range N).map (fun c => mergedCell board a r c) := by
  rw [mergedGrid, List.getD_eq_getElem?_getD, List.getElem?_map]
  rw [List.getElem?_range hr]
  rfl

/-- Cell access of the merged grid. -/
theorem getCell_mergedGrid {board : List (List Nat)} {N : Nat} {a : Assignment}
    {r c : Nat} (hr : r < N) (hc : c < N) :
    getCell (mergedGrid board N a) r c = mergedCell board a r c := by
  rw [getCell, mergedGrid_row hr, List.getD_eq_getElem?_getD, List.getElem?_map,
    List.getElem?_range hc]
  rfl

/-- Box coordinates stay inside an `N = bs * bs` grid. -/
theorem boxCell_bound {bs N bi i : Nat} (hsq : bs * bs = N) (hbi : bi < bs)
    (hi : i < bs) : bi * bs + i < N := by
  calc bi * bs + i < (bi + 1) * bs := by
        rw [Nat.succ_mul]
        omega
    _ ≤ bs * bs := Nat.mul_le_mul_right bs hbi
    _ = N := hsq

/-- Box index of a box cell. -/
theorem boxCell_div {bs bi i : Nat} (hi : i < bs) : (bi * bs + i) / bs = bi := by
  have hbs : 0 < bs := by omega
  rw [Nat.mul_comm, Nat.mul_add_div hbs, Nat.div_eq_of_lt hi, Nat.add_zero]

/-- Membership in a box cell list. -/
theorem mem_boxCells {bs bi bj : Nat} {u : Var} :
    u ∈ boxCells bs bi bj ↔
      ∃ i < bs, ∃ j < bs, u = (bi * bs + i, bj * bs + j) := by
  rw [boxCells]
  constructor
  · intro hu
    rcases List.mem_map.mp hu with ⟨p, hp, rfl⟩
    rcases List.mem_product.mp hp with ⟨h1, h2⟩
    exact ⟨p.1, List.mem_range.mp h1, p.2, List.mem_range.mp h2, rfl⟩
  · rintro ⟨i, hi, j, hj, rfl⟩
    exact List.mem_map.mpr ⟨(i, j),
      List.mem_product.mpr ⟨List.mem_range.mpr hi, List.mem_range.mpr hj⟩, rfl⟩

/-- A cellwise-valid merged grid is a solved Sudoku grid: all cells in
`1..N` and distinct within every row, column and box. -/
theorem merged_isSudokuGrid {board : List (List Nat)} {N bs : Nat} {a : Assignment}
    (hsq : bs * bs = N)
    (hrange : ∀ r < N, ∀ c < N,
      1 ≤ mergedCell board a r c ∧ mergedCell board a r c ≤ N)
    (hdiff : ∀ u w : Var, u.1 < N → u.2 < N → w.1 < N → w.2 < N → u ≠ w →
      sharesUnit bs u w = true →
      mergedCell board a u.1 u.2 ≠ mergedCell board a w.1 w.2) :
    isSudokuGrid N bs (mergedGrid board N a) := by
  refine ⟨mergedGrid_length board N a, ?_, ?_, ?_, ?_⟩
  · intro row hrow
    rcases List.mem_map.mp hrow with ⟨r, _, rfl⟩
    rw [List.length_map, List.length_range]
  · intro r hr
    rw [mergedGrid_row hr]
    apply perm_range'_of_nodup
    · rw [List.length_map, List.length_range]
    · intro x hx
      rcases List.mem_map.mp hx with ⟨c, hc, rfl⟩
      exact hrange r hr c (List.mem_range.mp hc)
    · refine List.Nodup.map_on ?_ (List.nodup_range N)
      intro c1 h1 c2 h2 heq
      by_contra hne
      exact hdiff (r, c1) (r, c2) hr (List.mem_range.mp h1) hr (List.mem_range.mp h2)
        (by simp [hne]) (by simp [sharesUnit]) heq
  · intro c hc
    have hcong : (List.range N).map (fun r => getCell (mergedGrid board N a) r c) =
        (List.range N).map (fun r => mergedCell board a r c) := by
      apply List.map_congr_left
      intro r hr
      exact getCell_mergedGrid (List.mem_range.mp hr) hc
    rw [hcong]
    apply perm_range'_of_nodup
    · rw [List.length_map, List.length_range]
    · intro x hx
      rcases List.mem_map.mp hx with ⟨r, hr, rfl⟩
      exact hrange r (List.mem_range.mp hr) c hc
    · refine List.Nodup.map_on ?_ (List.nodup_range N)
      intro r1 h1 r2 h2 heq
      by_contra hne
      exact hdiff (r1, c) (r2, c) (List.mem_range.mp h1) hc (List.mem_range.mp h2) hc
        (by simp [hne]) (by simp [sharesUnit]) heq
  · intro bi hbi bj hbj
    have hbound : ∀ u ∈ boxCells bs bi bj, u.1 < N ∧ u.2 < N := by
      intro u hu
      rcases mem_boxCells.mp hu with ⟨i, hi, j, hj, rfl⟩
      exact ⟨boxCell_bound hsq hbi hi, boxCell_bound hsq hbj hj⟩
    have hcong : (boxCells bs bi bj).map (fun u => getCell (mergedGrid board N a) u.1 u.2) =
        (boxCells bs bi bj).map (fun u => mergedCell board a u.1 u.2) := by
      apply List.map_congr_left
      intro u hu
      exact getCell_mergedGrid (hbound u hu).1 (hbound u hu).2
    rw [hcong]
    apply perm_range'_of_nodup
    · rw [List.length_map, boxCells, List.length_map, List.length_product]
      simp [hsq]

    · intro x hx
      rcases List.mem_map.mp hx with ⟨u, hu, rfl⟩
      exact hrange u.1 (hbound u hu).1 u.2 (hbound u hu).2
    · have hnd : (boxCells bs bi bj).Nodup := by
        rw [boxCells]
        refine List.Nodup.map_on ?_
          (List.Nodup.product (List.nodup_range bs) (List.nodup_range bs))
        intro p hp q hq heq
        have h1 := congrArg Prod.fst heq
        have h2 := congrArg Prod.snd heq
        simp only at h1 h2
        obtain ⟨p1, p2⟩ := p
        obtain ⟨q1, q2⟩ := q
        simp only at h1 h2
        have : p1 = q1 := by omega
        have : p2 = q2 := by omega
        simp_all
      refine List.Nodup.map_on ?_ hnd
      intro u hu w hw heq
      by_contra hne
      rcases mem_boxCells.mp hu with ⟨i, hi, j, hj, rfl⟩
      rcases mem_boxCells.mp hw with ⟨i', hi', j', hj', rfl⟩
      refine hdiff _ _ (boxCell_bound hsq hbi hi) (boxCell_bound hsq hbj hj)
        (boxCell_bound hsq hbi hi') (boxCell_bound hsq hbj hj') hne ?_ heq
      simp only [sharesUnit, Bool.or_eq_true, Bool.and_eq_true, beq_iff_eq]
      refine Or.inr ⟨?_, ?_⟩
      · rw [boxCell_div hi, boxCell_div hi']
      · rw [boxCell_div hj, boxCell_div hj']

/-! ### Search invariants for soundness -/

/-- The neighbourhood condition is symmetric. -/
theorem sharesUnit_symm (bs : Nat) (u v : Var) :
    sharesUnit bs u v = sharesUnit bs v u := by
  rw [Bool.eq_iff_iff]
  simp only [sharesUnit, Bool.or_eq_true, Bool.and_eq_true, beq_iff_eq]
  constructor
  · rintro ((h | h) | ⟨h1, h2⟩)
    · exact Or.inl (Or.inl h.symm)
    · exact Or.inl (Or.inr h.symm)
    · exact Or.inr ⟨h1.symm, h2.symm⟩
  · rintro ((h | h) | ⟨h1, h2⟩)
    · exact Or.inl (Or.inl h.symm)
    · exact Or.inl (Or.inr h.symm)
    · exact Or.inr ⟨h1.symm, h2.symm⟩

/-- Key discipline of the assignment dictionary: unique keys drawn from
the engine's variables. -/
def keysOK (csp : SudokuCSP) (a : Assignment) : Prop :=
  (a.map Prod.fst).Nodup ∧ ∀ p ∈ a, p.1 ∈ csp.vars

/-- Semantic consistency of an assignment: values in `1..N`, no clash
between two assigned unit-sharing cells, no clash with a pre-filled cell. -/
def assignOK (N bs : Nat) (board : List (List Nat)) (a : Assignment) : Prop :=
  (∀ p ∈ a, 1 ≤ p.2 ∧ p.2 ≤ N) ∧
  (∀ p ∈ a, ∀ q ∈ a, p.1 ≠ q.1 → sharesUnit bs p.1 q.1 = true → p.2 ≠ q.2) ∧
  (∀ p ∈ a, ∀ u : Var, u.1 < N → u.2 < N → getCell board u.1 u.2 ≠ 0 →
    sharesUnit bs p.1 u = true → p.2 ≠ getCell board u.1 u.2)

/-- Semantic soundness of a working domain map on the unassigned
variables: duplicate-free, inside `1..N`, and never clashing with a
pre-filled cell. -/
def domOK (N bs : Nat) (board : List (List Nat)) (csp : SudokuCSP)
    (d : Domains) (a : Assignment) : Prop :=
  ∀ v ∈ csp.vars, lookupA a v = none →
    (d v).Nodup ∧ ∀ x ∈ d v, (1 ≤ x ∧ x ≤ N) ∧
      ∀ u : Var, u.1 < N → u.2 < N → getCell board u.1 u.2 ≠ 0 →
        sharesUnit bs v u = true → x ≠ getCell board u.1 u.2

/-- A full-length assignment with unique keys covers every variable. -/
theorem lookupA_total {csp : SudokuCSP} {a : Assignment} (hvnd : csp.vars.Nodup)
    (hk : keysOK csp a) (hlen : a.length = csp.vars.length) :
    ∀ v ∈ csp.vars, ∃ x, (v, x) ∈ a ∧ lookupA a v = some x := by
  intro v hv
  have hkeys_sub : ∀ k ∈ a.map Prod.fst, k ∈ csp.vars := by
    intro k hkm
    rcases List.mem_map.mp hkm with ⟨p, hp, rfl⟩
    exact hk.2 p hp
  have hperm : (a.map Prod.fst).Perm csp.vars :=
    (List.subperm_of_subset hk.1 hkeys_sub).perm_of_length_le
      (by rw [List.length_map]; omega)
  have hvk : v ∈ a.map Prod.fst := hperm.mem_iff.mpr hv
  rcases List.mem_map.mp hvk with ⟨p, hp, rfl⟩
  exact ⟨p.2, hp, lookupA_of_mem hk.1 hp⟩

/-- Cells of the merged grid of a sound total assignment lie in `1..N`. -/
theorem merged_cell_range_of {N : Nat} {bs : Nat} {board : List (List Nat)}
    {a : Assignment}
    (hvals : ∀ r < N, ∀ c < N, getCell board r c ≤ N)
    (ha : assignOK N bs board a)
    (htot : ∀ v ∈ (mkSudokuCSP N (some board)).vars,
      ∃ x, (v, x) ∈ a ∧ lookupA a v = some x) :
    ∀ r < N, ∀ c < N, 1 ≤ mergedCell board a r c ∧ mergedCell board a r c ≤ N := by
  intro r hr c hc
  rw [mergedCell]
  by_cases h0 : getCell board r c = 0
  · rw [if_pos h0]
    have hvmem : ((r, c) : Var) ∈ (mkSudokuCSP N (some board)).vars :=
      mem_vars_mk.mpr ⟨hr, hc, h0⟩
    obtain ⟨x, hxa, hxl⟩ := htot _ hvmem
    rw [hxl]
    exact ha.1 ((r, c), x) hxa
  · rw [if_neg h0]
    exact ⟨Nat.one_le_iff_ne_zero.mpr h0, hvals r hr c hc⟩

/-- Distinct unit-sharing cells of the merged grid of a sound total
assignment hold different values. -/
theorem merged_cell_diff_of {N bs : Nat} {board : List (List Nat)} {a : Assignment}
    (hfill : ∀ u w : Var, u.1 < N → u.2 < N → w.1 < N → w.2 < N → u ≠ w →
      sharesUnit bs u w = true → getCell board u.1 u.2 ≠ 0 →
      getCell board w.1 w.2 ≠ 0 → getCell board u.1 u.2 ≠ getCell board w.1 w.2)
    (ha : assignOK N bs board a)
    (htot : ∀ v ∈ (mkSudokuCSP N (some board)).vars,
      ∃ x, (v, x) ∈ a ∧ lookupA a v = some x) :
    ∀ u w : Var, u.1 < N → u.2 < N → w.1 < N → w.2 < N → u ≠ w →
      sharesUnit bs u w = true →
      mergedCell board a u.1 u.2 ≠ mergedCell board a w.1 w.2 := by
  rintro ⟨u1, u2⟩ ⟨w1, w2⟩ hu1 hu2 hw1 hw2 hne hsh
  simp only at hu1 hu2 hw1 hw2
  rw [mergedCell, mergedCell]
  by_cases h0u : getCell board u1 u2 = 0
  · have humem : ((u1, u2) : Var) ∈ (mkSudokuCSP N (some board)).vars :=
      mem_vars_mk.mpr ⟨hu1, hu2, h0u⟩
    obtain ⟨x, hxa, hxl⟩ := htot _ humem
    rw [if_pos h0u, hxl]
    by_cases h0w : getCell board w1 w2 = 0
    · have hwmem : ((w1, w2) : Var) ∈ (mkSudokuCSP N (some board)).vars :=
        mem_vars_mk.mpr ⟨hw1, hw2, h0w⟩
      obtain ⟨y, hya, hyl⟩ := htot _ hwmem
      rw [if_pos h0w, hyl]
      exact ha.2.1 ((u1, u2), x) hxa ((w1, w2), y) hya hne hsh
    · rw [if_neg h0w]
      exact ha.2.2 ((u1, u2), x) hxa (w1, w2) hw1 hw2 h0w hsh
  · rw [if_neg h0u]
    by_cases h0w : getCell board w1 w2 = 0
    · have hwmem : ((w1, w2) : Var) ∈ (mkSudokuCSP N (some board)).vars :=
        mem_vars_mk.mpr ⟨hw1, hw2, h0w⟩
      obtain ⟨y, hya, hyl⟩ := htot _ hwmem
      rw [if_pos h0w, hyl]
      have := ha.2.2 ((w1, w2), y) hya (u1, u2) hu1 hu2 h0u
        (sharesUnit_symm bs (u1, u2) (w1, w2) ▸ hsh)
      exact fun he => this he.symm
    · rw [if_neg h0w]
      exact hfill (u1, u2) (w1, w2) hu1 hu2 hw1 hw2 hne hsh h0u h0w

/-- The pruning loop only ever shrinks each domain. -/
theorem fcLoop_sublist {csp : SudokuCSP} {var : Var} {value : Nat} :
    ∀ {l : List Var} {nd : Domains} {rm : Removed} {nd' : Domains} {rm' : Removed},
      fcLoop csp var value l nd rm = (some nd', rm') →
      ∀ v, (nd' v).Sublist (nd v) := by
  intro l
  induction l with
  | nil =>
    intro nd rm nd' rm' h v
    simp only [fcLoop, Prod.mk.injEq, Option.some.injEq] at h
    rw [h.1]
  | cons u rest ih =>
    intro nd rm nd' rm' h v
    rw [fcLoop] at h
    by_cases hu : u = var
    · rw [if_pos hu] at h
      exact ih h v
    · rw [if_neg hu] at h
      by_cases hsh : sharesUnit csp.box_size u var = true
      · rw [if_pos hsh] at h
        by_cases hpres : ((nd u).contains value) = true
        · rw [if_pos hpres] at h
          by_cases hemp : (nd u).erase value = []
          · rw [if_pos hemp] at h
            cases h
          · rw [if_neg hemp] at h
            refine (ih h v).trans ?_
            rw [updateF]
            by_cases hvu : v = u
            · subst hvu
              rw [if_pos rfl]
              exact List.erase_sublist _ _
            · rw [if_neg hvu]
        · rw [if_neg hpres] at h
          by_cases hemp : nd u = []
          · rw [if_pos hemp] at h
            cases h
          · rw [if_neg hemp] at h
            exact ih h v
      · rw [if_neg hsh] at h
        exact ih h v

/-- Membership through the stable insertion. -/
theorem mem_insertByKey {f : Nat → Nat} {x y : Nat} :
    ∀ {l : List Nat}, (y ∈ insertByKey f x l ↔ y = x ∨ y ∈ l) := by
  intro l
  induction l with
  | nil => simp [insertByKey]
  | cons z rest ih =>
    rw [insertByKey]
    by_cases h : f z < f x
    · rw [if_pos h]
      simp only [List.mem_cons, ih]
      tauto
    · rw [if_neg h]
      simp [List.mem_cons]

/-- Membership through the stable sort. -/
theorem mem_sortByKey {f : Nat → Nat} {x : Nat} :
    ∀ {l : List Nat}, (x ∈ sortByKey f l ↔ x ∈ l) := by
  intro l
  induction l with
  | nil => simp [sortByKey]
  | cons z rest ih =>
    rw [sortByKey, mem_insertByKey]
    simp only [List.mem_cons, ih]

/-- Collapsing the row/column double loop of the constructor into a single
fold over the cell list. -/
theorem foldl_nested (g : Domains → Var → Domains) (rows cols : List Nat) :
    ∀ d : Domains,
      rows.foldl (fun d r => cols.foldl (fun d c => g d (r, c)) d) d =
        (rows.flatMap (fun r => cols.map (fun c => (r, c)))).foldl g d := by
  induction rows with
  | nil => intro d; rfl
  | cons r rest ih =>
    intro d
    rw [List.foldl_cons, List.flatMap_cons, List.foldl_append, List.foldl_map, ih]

/-- Pointwise the folds of the constructor only shrink domains. -/
theorem foldl_pointwise_sublist {α : Type} {step : Domains → α → Domains}
    (hstep : ∀ d a v, ((step d a) v).Sublist (d v)) :
    ∀ (L : List α) (d : Domains) (v : Var), ((L.foldl step d) v).Sublist (d v) := by
  intro L
  induction L with
  | nil => intro d v; exact List.Sublist.refl _
  | cons a rest ih =>
    intro d v
    exact (ih (step d a) v).trans (hstep d a v)

/-- All cells of an `N`-by-`N` grid, in row-major order. -/
def cellList (N : Nat) : List Var :=
  (List.range N).flatMap (fun r => (List.range N).map (fun c => (r, c)))

/-- Membership in the full cell list. -/
theorem mem_cellList {N : Nat} {u : Var} :
    u ∈ cellList N ↔ u.1 < N ∧ u.2 < N := by
  obtain ⟨r, c⟩ := u
  simp only [cellList, List.mem_flatMap, List.mem_map, List.mem_range, Prod.mk.injEq]
  constructor
  · rintro ⟨r', hr', c', hc', rfl, rfl⟩
    exact ⟨hr', hc'⟩
  · rintro ⟨hr, hc⟩
    exact ⟨r, hr, c, hc, rfl, rfl⟩

/-- `pruneFilled` is the fold of `pruneStep` over all cells in row-major
order. -/
theorem pruneFilled_eq_foldl (bs size : Nat) (board : List (List Nat)) (d : Domains) :
    pruneFilled bs size board d =
      (cellList size).foldl (pruneStep bs board) d := by
  rw [pruneFilled, cellList, foldl_nested (pruneStep bs board)]

/-- Each pruning step only shrinks domains. -/
theorem pruneStep_sublist (bs : Nat) (board : List (List Nat)) :
    ∀ (d : Domains) (u : Var) (v : Var), ((pruneStep bs board d u) v).Sublist (d v) := by
  intro d u v
  rw [pruneStep]
  split
  · rw [removeConflicts]
    split
    · exact List.erase_sublist _ _
    · exact List.Sublist.refl _
  · exact List.Sublist.refl _

/-- Pruning steps preserve pointwise duplicate-freedom. -/
theorem pruneStep_nodup (bs : Nat) (board : List (List Nat)) {d : Domains}
    (hd : ∀ v, (d v).Nodup) : ∀ u v, ((pruneStep bs board d u) v).Nodup :=
  fun u v => ((pruneStep_sublist bs board d u v).nodup (hd v))

/-- After folding the pruning step over a cell list, the value of every
processed filled cell is absent from every unit-sharing domain. -/
theorem prune_kills (bs : Nat) (board : List (List Nat)) :
    ∀ (L : List Var) (d : Domains), (∀ v, (d v).Nodup) →
      ∀ (v u : Var), u ∈ L → getCell board u.1 u.2 ≠ 0 →
        sharesUnit bs v u = true →
        getCell board u.1 u.2 ∉ (L.foldl (pruneStep bs board) d) v := by
  intro L
  induction L with
  | nil =>
    intro d _ v u hu
    cases hu
  | cons u0 rest ih =>
    intro d hd v u hu hfill hsh
    rw [List.foldl_cons]
    rcases List.mem_cons.mp hu with rfl | hu'
    · have hstep : getCell board u.1 u.2 ∉ (pruneStep bs board d u) v := by
        rw [pruneStep, if_pos hfill, removeConflicts, if_pos hsh]
        intro hmem
        exact (((hd v).mem_erase_iff).mp hmem).1 rfl
      intro hmem
      exact hstep
        ((foldl_pointwise_sublist (pruneStep_sublist bs board) rest _ v).subset hmem)
    · exact ih (pruneStep bs board d u0) (pruneStep_nodup bs board hd u0) v u hu' hfill hsh

/-- The initial domains of a constructed engine are semantically sound:
inside `1..N` and never clashing with any pre-filled cell of a shared
unit. -/
theorem initial_domOK (N : Nat) (board : List (List Nat)) :
    domOK N (mkSudokuCSP N (some board)).box_size board (mkSudokuCSP N (some board))
      (mkSudokuCSP N (some board)).initial_domains [] := by
  intro v hv _
  have hbase_nodup : ∀ w, ((baseDomains (initVars N board) N) w).Nodup := by
    intro w
    rw [baseDomains]
    split
    · exact List.nodup_range' 1 N
    · exact List.nodup_nil
  have hsubl : ((mkSudokuCSP N (some board)).initial_domains v).Sublist
      (baseDomains (initVars N board) N v) := by
    show ((pruneFilled (intSqrt N) N board (baseDomains (initVars N board) N)) v).Sublist
      (baseDomains (initVars N board) N v)
    rw [pruneFilled_eq_foldl]
    exact foldl_pointwise_sublist (pruneStep_sublist _ _) _ _ v
  constructor
  · exact initial_domains_nodup N (some board) v
  · intro x hx
    have hx' : x ∈ baseDomains (initVars N board) N v := hsubl.subset hx
    have hvv : v ∈ initVars N board := hv
    rw [baseDomains, if_pos hvv, List.mem_range'_1] at hx'
    refine ⟨⟨hx'.1, by omega⟩, ?_⟩
    intro u hu1 hu2 hfill hsh hx_eq
    have hkill := prune_kills (mkSudokuCSP N (some board)).box_size board
      (cellList N) (baseDomains (initVars N board) N) hbase_nodup v u
      (mem_cellList.mpr ⟨hu1, hu2⟩) hfill hsh
    apply hkill
    rw [← pruneFilled_eq_foldl]
    rw [← hx_eq]
    exact hx

/-- A consistent fresh assignment extends the key and semantic invariants. -/
theorem assign_preserves {N : Nat} {board : List (List Nat)}
    (hsq : (mkSudokuCSP N (some board)).box_size * (mkSudokuCSP N (some board)).box_size = N)
    {a : Assignment} {d : Domains} {var : Var} {value : Nat}
    (hk : keysOK (mkSudokuCSP N (some board)) a)
    (ha : assignOK N (mkSudokuCSP N (some board)).box_size board a)
    (hd : domOK N (mkSudokuCSP N (some board)).box_size board (mkSudokuCSP N (some board)) d a)
    (hvm : var ∈ (mkSudokuCSP N (some board)).vars)
    (hvu : lookupA a var = none)
    (hval : value ∈ d var)
    (hcons : (mkSudokuCSP N (some board)).is_consistent var value a = true) :
    keysOK (mkSudokuCSP N (some board)) (a ++ [(var, value)]) ∧
      assignOK N (mkSudokuCSP N (some board)).box_size board (a ++ [(var, value)]) := by
  obtain ⟨hvr, hvc, _⟩ := mem_vars_mk.mp hvm
  have hnoconf : ∀ u : Var, u.1 < N → u.2 < N →
      sharesUnit (mkSudokuCSP N (some board)).box_size u var = true →
      lookupA a u ≠ some value := by
    intro u h1 h2 hsh hl
    have hfalse := (is_consistent_false_iff hsq hvr hvc value a).mpr ⟨u, h1, h2, hsh, hl⟩
    rw [hcons] at hfalse
    cases hfalse
  have hvprops := (hd var hvm hvu).2 value hval
  constructor
  · constructor
    · rw [List.map_append, List.nodup_append]
      refine ⟨hk.1, List.nodup_singleton _, ?_⟩
      intro k hk1 hk2
      rcases List.mem_map.mp hk1 with ⟨p, hp, rfl⟩
      simp only [List.map_cons, List.map_nil, List.mem_singleton] at hk2
      exact lookupA_eq_none.mp hvu p hp hk2
    · intro p hp
      rcases List.mem_append.mp hp with h | h
      · exact hk.2 p h
      · simp only [List.mem_singleton] at h
        subst h
        exact hvm
  · refine ⟨?_, ?_, ?_⟩
    · intro p hp
      rcases List.mem_append.mp hp with h | h
      · exact ha.1 p h
      · simp only [List.mem_singleton] at h
        subst h
        exact hvprops.1
    · intro p hp q hq hne hsh
      rcases List.mem_append.mp hp with h | h
      · rcases List.mem_append.mp hq with h' | h'
        · exact ha.2.1 p h q h' hne hsh
        · simp only [List.mem_singleton] at h'
          subst h'
          obtain ⟨p1, p2⟩ := p
          have hb := mem_vars_mk.mp (hk.2 (p1, p2) h)
          intro he
          dsimp only at he
          exact hnoconf p1 hb.1 hb.2.1 hsh
            (by rw [lookupA_of_mem hk.1 h, he])
      · simp only [List.mem_singleton] at h
        subst h
        rcases List.mem_append.mp hq with h' | h'
        · obtain ⟨q1, q2⟩ := q
          have hb := mem_vars_mk.mp (hk.2 (q1, q2) h')
          intro he
          dsimp only at he
          refine hnoconf q1 hb.1 hb.2.1 ?_ ?_
          · rw [sharesUnit_symm]
            exact hsh
          · rw [lookupA_of_mem hk.1 h', ← he]
        · simp only [List.mem_singleton] at h'
          subst h'
          exact absurd rfl hne
    · intro p hp u h1 h2 hfill hsh
      rcases List.mem_append.mp hp with h | h
      · exact ha.2.2 p h u h1 h2 hfill hsh
      · simp only [List.mem_singleton] at h
        subst h
        exact hvprops.2 u h1 h2 hfill hsh

/-- A successful forward check keeps the domain soundness invariant for
the extended assignment. -/
theorem domOK_after_fc {N : Nat} {board : List (List Nat)}
    {a : Assignment} {d : Domains} {var : Var} {value : Nat}
    {nd : Domains} {rm : Removed}
    (hd : domOK N (mkSudokuCSP N (some board)).box_size board (mkSudokuCSP N (some board)) d a)
    (hfc : (mkSudokuCSP N (some board)).forward_check var value d = (some nd, rm)) :
    domOK N (mkSudokuCSP N (some board)).box_size board (mkSudokuCSP N (some board))
      nd (a ++ [(var, value)]) := by
  intro v hv hvun
  rw [lookupA_append_single] at hvun
  rcases hold : lookupA a v with _ | y
  · rw [hold] at hvun
    have hvv : var ≠ v := by
      intro he
      rw [if_pos he] at hvun
      cases hvun
    have hsubl : (nd v).Sublist (d v) := by
      rw [SudokuCSP.forward_check] at hfc
      have := fcLoop_sublist hfc v
      rw [updateF, if_neg (fun he => hvv he.symm)] at this
      exact this
    obtain ⟨hnodup, hprops⟩ := hd v hv hold
    exact ⟨hsubl.nodup hnodup, fun x hx => hprops x (hsubl.subset hx)⟩
  · rw [hold] at hvun
    cases hvun

/-- Soundness payload of a solution event: a total consistent assignment
with unique keys drawn from the engine's variables. -/
def solOK (N : Nat) (board : List (List Nat)) (p : Assignment) : Prop :=
  keysOK (mkSudokuCSP N (some board)) p ∧
  assignOK N (mkSudokuCSP N (some board)).box_size board p ∧
  p.length = (mkSudokuCSP N (some board)).vars.length

/-- Soundness of the value loop: every solution event of the fully drained
loop carries a total consistent assignment, assuming the recursive call
does the same on invariant-preserving inputs. -/
theorem btLoop_sound {N : Nat} {board : List (List Nat)}
    (hsq : (mkSudokuCSP N (some board)).box_size * (mkSudokuCSP N (some board)).box_size = N)
    {var : Var} {a : Assignment}
    {child : Domains → Assignment → Stats → Option (List SEvent × Stats)}
    (hvm : var ∈ (mkSudokuCSP N (some board)).vars)
    (hvu : lookupA a var = none)
    (hk : keysOK (mkSudokuCSP N (some board)) a)
    (ha : assignOK N (mkSudokuCSP N (some board)).box_size board a)
    {d : Domains}
    (hd : domOK N (mkSudokuCSP N (some board)).box_size board (mkSudokuCSP N (some board)) d a)
    (hchild : ∀ nd x s evs s2,
      keysOK (mkSudokuCSP N (some board)) (a ++ [(var, x)]) →
      assignOK N (mkSudokuCSP N (some board)).box_size board (a ++ [(var, x)]) →
      domOK N (mkSudokuCSP N (some board)).box_size board (mkSudokuCSP N (some board))
        nd (a ++ [(var, x)]) →
      child nd (a ++ [(var, x)]) s = some (evs, s2) →
      ∀ p, SEvent.solution p ∈ evs → solOK N board p) :
    ∀ (values : List Nat), (∀ x ∈ values, x ∈ d var) →
      ∀ s evs s',
        btLoop (mkSudokuCSP N (some board)) var child values d a s = some (evs, s') →
        ∀ p, SEvent.solution p ∈ evs → solOK N board p := by
  intro values
  induction values with
  | nil =>
    intro _ s evs s' h p hp
    simp only [btLoop, Option.some.injEq, Prod.mk.injEq] at h
    rw [← h.1] at hp
    cases hp
  | cons value rest ih =>
    intro hsub s evs s' h p hp
    have hsub' : ∀ x ∈ rest, x ∈ d var := fun x hx => hsub x (List.mem_cons_of_mem value hx)
    rw [btLoop] at h
    by_cases hc : (mkSudokuCSP N (some board)).is_consistent var value a
    · rw [if_pos hc] at h
      have ha1 : dictSet a var value = a ++ [(var, value)] := dictSet_of_none hvu
      have ha2 : dictDel (dictSet a var value) var = a := by
        rw [ha1]
        exact dictDel_append_single hvu
      rcases hfc : (mkSudokuCSP N (some board)).forward_check var value d with ⟨o, removed⟩
      rw [hfc] at h
      rcases o with _ | nd
      · dsimp only at h
        rw [ha2] at h
        rcases hl : btLoop (mkSudokuCSP N (some board)) var child rest d a
            { s with backtracks := s.backtracks + 1 } with _ | ⟨evs2, s2⟩
        · rw [hl] at h
          cases h
        · rw [hl] at h
          simp only [Option.some.injEq, Prod.mk.injEq] at h
          rw [← h.1] at hp
          simp only [List.mem_cons] at hp
          rcases hp with h1 | h1 | h1 | h1
          · cases h1
          · cases h1
          · cases h1
          · exact ih hsub' _ _ _ hl p h1
      · dsimp only at h
        rcases hch : child nd (dictSet a var value) s with _ | ⟨cevs, s2⟩
        · rw [hch] at h
          cases h
        · rw [hch] at h
          dsimp only at h
          rw [ha2] at h
          rcases hl : btLoop (mkSudokuCSP N (some board)) var child rest d a
              { s2 with backtracks := s2.backtracks + 1 } with _ | ⟨evs2, s3⟩
          · rw [hl] at h
            cases h
          · rw [hl] at h
            simp only [Option.some.injEq, Prod.mk.injEq] at h
            rw [← h.1] at hp
            simp only [List.mem_cons, List.mem_append] at hp
            rcases hp with h1 | h1 | (h1 | (h1 | h1))
            · cases h1
            · cases h1
            · -- event of the recursive call
              obtain ⟨hknew, hanew⟩ := assign_preserves hsq hk ha hd hvm hvu
                (hsub value (List.mem_cons_self value rest)) hc
              have hdnew := @domOK_after_fc N board a d var value nd removed hd hfc
              rw [ha1] at hch
              exact hchild nd value s cevs s2 hknew hanew hdnew hch p h1
            · cases h1
            · exact ih hsub' _ _ _ hl p h1
    · rw [if_neg hc] at h
      rcases hl : btLoop (mkSudokuCSP N (some board)) var child rest d a s
          with _ | ⟨evs2, s2⟩
      · rw [hl] at h
        cases h
      · rw [hl] at h
        simp only [Option.some.injEq, Prod.mk.injEq] at h
        rw [← h.1] at hp
        simp only [List.mem_cons] at hp
        rcases hp with h1 | h1
        · cases h1
        · exact ih hsub' _ _ _ hl p h1

/-- Soundness of the drained generator: every solution event carries a
total consistent assignment. -/
theorem btFuel_sound {N : Nat} {board : List (List Nat)}
    (hsq : (mkSudokuCSP N (some board)).box_size * (mkSudokuCSP N (some board)).box_size = N) :
    ∀ (fuel : Nat) {d : Domains} {a : Assignment} {s : Stats} {evs : List SEvent} {s' : Stats},
      keysOK (mkSudokuCSP N (some board)) a →
      assignOK N (mkSudokuCSP N (some board)).box_size board a →
      domOK N (mkSudokuCSP N (some board)).box_size board (mkSudokuCSP N (some board)) d a →
      btFuel (mkSudokuCSP N (some board)) fuel d a s = some (evs, s') →
      ∀ p, SEvent.solution p ∈ evs → solOK N board p := by
  intro fuel
  induction fuel with
  | zero =>
    intro d a s evs s' _ _ _ h
    simp [btFuel] at h
  | succ fuel ih =>
    intro d a s evs s' hk ha hd h p hp
    rw [btFuel] at h
    by_cases hterm : a.length = (mkSudokuCSP N (some board)).vars.length
    · rw [if_pos hterm] at h
      simp only [Option.some.injEq, Prod.mk.injEq] at h
      rw [← h.1] at hp
      rcases List.mem_cons.mp hp with h1 | h1
      · cases h1
        exact ⟨hk, ha, hterm⟩
      · cases h1
    · rw [if_neg hterm] at h
      rcases hs : (mkSudokuCSP N (some board)).select_unassigned_var d a with _ | var
      · rw [hs] at h
        cases h
      · rw [hs] at h
        dsimp only at h
        rcases hl : btLoop (mkSudokuCSP N (some board)) var
            (fun nd a1 s2 => btFuel (mkSudokuCSP N (some board)) fuel nd a1 s2)
            ((mkSudokuCSP N (some board)).order_domain_values var d a) d a
            { s with nodes := s.nodes + 1 } with _ | ⟨evs2, s2⟩
        · rw [hl] at h
          cases h
        · rw [hl] at h
          simp only [Option.some.injEq, Prod.mk.injEq] at h
          rw [← h.1] at hp
          simp only [List.mem_cons] at hp
          rcases hp with h1 | h1 | h1
          · cases h1
          · cases h1
          · obtain ⟨hvm, hvu⟩ := select_mem hs
            refine btLoop_sound hsq hvm hvu hk ha hd ?_ _ ?_ _ _ _ hl p h1
            · intro nd x s1 evs1 s1' hk1 ha1 hd1 hch
              exact ih hk1 ha1 hd1 hch
            · intro x hx
              rw [SudokuCSP.order_domain_values] at hx
              exact mem_sortByKey.mp hx

/-! ### Claim C3 -/

/-- C3: for a solvable well-formed board (square size, cell values in
range, mutually consistent pre-filled cells), every solution event of the
fully drained default search, merged with the pre-filled cells, is an
`N`-by-`N` grid in which every row, column and box is a permutation of
`1..N`. -/
theorem C3_solution_events_valid (N : Nat) (board : List (List Nat))
    (hsq : (mkSudokuCSP N (some board)).box_size *
      (mkSudokuCSP N (some board)).box_size = N)
    (hvals : ∀ r < N, ∀ c < N, getCell board r c ≤ N)
    (hfill : ∀ u ∈ cellList N, ∀ w ∈ cellList N, u ≠ w →
      sharesUnit (mkSudokuCSP N (some board)).box_size u w = true →
      getCell board u.1 u.2 ≠ 0 → getCell board w.1 w.2 ≠ 0 →
      getCell board u.1 u.2 ≠ getCell board w.1 w.2)
    (hsolv : ∃ g, isCompletion board N (mkSudokuCSP N (some board)).box_size g) :
    ∀ fuel evs stats,
      (mkSudokuCSP N (some board)).backtrack_default fuel = some (evs, stats) →
      ∀ a, SEvent.solution a ∈ evs →
        isSudokuGrid N (mkSudokuCSP N (some board)).box_size (mergedGrid board N a) := by
  intro fuel evs stats h a ha
  have hk0 : keysOK (mkSudokuCSP N (some board)) [] :=
    ⟨List.nodup_nil, fun p hp => absurd hp (List.not_mem_nil p)⟩
  have ha0 : assignOK N (mkSudokuCSP N (some board)).box_size board [] :=
    ⟨fun p hp => absurd hp (List.not_mem_nil p),
     fun p hp => absurd hp (List.not_mem_nil p),
     fun p hp => absurd hp (List.not_mem_nil p)⟩
  obtain ⟨hk, hassign, hlen⟩ :=
    btFuel_sound hsq fuel hk0 ha0 (initial_domOK N board) h a ha
  have htot := lookupA_total (vars_nodup_mk N (some board)) hk hlen
  apply merged_isSudokuGrid hsq
  · exact merged_cell_range_of hvals hassign htot
  · refine merged_cell_diff_of ?_ hassign htot
    intro u w h1 h2 h3 h4 hne hsh hf1 hf2
    exact hfill u (mem_cellList.mpr ⟨h1, h2⟩) w (mem_cellList.mpr ⟨h3, h4⟩)
      hne hsh hf1 hf2

/-- A 4-by-4 board one cell short of a complete solved grid. -/
def bHole : List (List Nat) := [[0, 2, 3, 4], [3, 4, 1, 2], [2, 1, 4, 3], [4, 3, 2, 1]]

/-- Witness for `C3_solution_events_valid`: on `bHole` the drained search
emits exactly the solution assigning 1 to `(0,0)`, and its merged grid is a
solved Sudoku grid. -/
theorem C3_solution_events_valid_witness :
    isSudokuGrid 4 (mkSudokuCSP 4 (some bHole)).box_size
      (mergedGrid bHole 4 [((0, 0), 1)]) :=
  C3_solution_events_valid 4 bHole (by decide)
    (by decide)
    (by decide)
    ⟨[[1, 2, 3, 4], [3, 4, 1, 2], [2, 1, 4, 3], [4, 3, 2, 1]], by
      constructor
      · refine ⟨by decide, by decide, ?_, ?_, ?_⟩ <;> decide
      · decide⟩
    10
    [SEvent.mrv (0, 0) [1], SEvent.lcv (0, 0) [1],
     SEvent.assign (0, 0) 1 [((0, 0), 1)], SEvent.fc_ok (0, 0) 1 [((0, 0), [])],
     SEvent.solution [((0, 0), 1)], SEvent.unassign (0, 0) []]
    { nodes := 2, backtracks := 1, solutions := 1 }
    (by rfl)
    [((0, 0), 1)]
    (by decide)

/-! ### Completeness machinery for claim C7 -/

/-- Payloads of the solution events of an event list. -/
def solutionsOf (evs : List SEvent) : List Assignment :=
  evs.filterMap (fun e => match e with
    | SEvent.solution p => some p
    | _ => none)

/-- A grid agrees with an assignment dictionary. -/
def agreesWith (g : List (List Nat)) (a : Assignment) : Prop :=
  ∀ q ∈ a, getCell g q.1.1 q.1.2 = q.2

/-- Agreement with an extended assignment. -/
theorem agreesWith_append {g : List (List Nat)} {a : Assignment} {var : Var} {x : Nat} :
    agreesWith g (a ++ [(var, x)]) ↔ agreesWith g a ∧ getCell g var.1 var.2 = x := by
  constructor
  · intro h
    exact ⟨fun q hq => h q (List.mem_append.mpr (Or.inl hq)),
      h (var, x) (List.mem_append.mpr (Or.inr (List.mem_singleton.mpr rfl)))⟩
  · rintro ⟨h1, h2⟩ q hq
    rcases List.mem_append.mp hq with hq' | hq'
    · exact h1 q hq'
    · simp only [List.mem_singleton] at hq'
      subst hq'
      exact h2

/-- A successful lookup comes from an entry. -/
theorem lookupA_mem : ∀ {a : Assignment} {v : Var} {x : Nat},
    lookupA a v = some x → (v, x) ∈ a := by
  intro a
  induction a with
  | nil =>
    intro v x h
    cases h
  | cons p rest ih =>
    intro v x h
    obtain ⟨k, y⟩ := p
    rw [lookupA] at h
    by_cases hk : k = v
    · rw [if_pos hk] at h
      cases h
      subst hk
      exact List.mem_cons_self _ _
    · rw [if_neg hk] at h
      exact List.mem_cons_of_mem _ (ih h)

/-- The counting loop of `is_valid_puzzle` computes whether exactly one
solution event occurs (with its early exit at two). -/
theorem countSolLoop_eq : ∀ (evs : List SEvent) (k : Nat), k ≤ 1 →
    countSolLoop evs k = decide (k + (solutionsOf evs).length = 1) := by
  intro evs
  induction evs with
  | nil =>
    intro k hk
    rcases Nat.le_one_iff_eq_zero_or_eq_one.mp hk with rfl | rfl <;> rfl
  | cons e rest ih =>
    intro k hk
    rcases e with p | ⟨v, dom⟩ | ⟨v, vals⟩ | ⟨v, value⟩ | ⟨v, value, snap⟩ |
      ⟨v, value, rmv⟩ | ⟨v, value, rmv⟩ | ⟨v, snap⟩
    · have hlen : solutionsOf (SEvent.solution p :: rest) = p :: solutionsOf rest := rfl
      by_cases h1 : k + 1 > 1
      · have h2 : countSolLoop (SEvent.solution p :: rest) k = false := by
          show (if k + 1 > 1 then false else countSolLoop rest (k + 1)) = false
          rw [if_pos h1]
        rw [h2, hlen, List.length_cons]
        exact (decide_eq_false (by omega)).symm
      · have h2 : countSolLoop (SEvent.solution p :: rest) k = countSolLoop rest (k + 1) := by
          show (if k + 1 > 1 then false else countSolLoop rest (k + 1)) = _
          rw [if_neg h1]
        rw [h2, ih (k + 1) (by omega), hlen, List.length_cons]
        exact decide_eq_decide.mpr (by omega)
    all_goals exact ih k hk

/-- A duplicate-free list whose membership is a predicate has length one
exactly when the predicate has a unique witness. -/
theorem length_one_iff_existsUnique {l : List (List (List Nat))}
    {P : List (List Nat) → Prop} (hnd : l.Nodup) (hmem : ∀ g, g ∈ l ↔ P g) :
    (l.length = 1 ↔ ∃! g, P g) := by
  constructor
  · intro hlen
    rcases l with _ | ⟨g, rest⟩
    · cases hlen
    · rcases rest with _ | ⟨g2, rest2⟩
      · refine ⟨g, (hmem g).mp (List.mem_cons_self g []), ?_⟩
        intro g' hg'
        have := (hmem g').mpr hg'
        rcases List.mem_cons.mp this with h | h
        · exact h
        · cases h
      · cases hlen
  · rintro ⟨g, hg, huniq⟩
    have hgmem : g ∈ l := (hmem g).mpr hg
    have hall : ∀ x ∈ l, x = g := fun x hx => huniq x ((hmem x).mp hx)
    rcases l with _ | ⟨y, rest⟩
    · cases hgmem
    · rcases rest with _ | ⟨z, rest2⟩
      · rfl
      · exfalso
        rw [List.nodup_cons] at hnd
        have hy := hall y (List.mem_cons_self _ _)
        have hz := hall z (List.mem_cons_of_mem _ (List.mem_cons_self _ _))
        exact hnd.1 (by rw [hy, ← hz]; exact List.mem_cons_self _ _)

/-- Reading inside the bounds via `getD` is a plain index read. -/
theorem getD_eq_getElem' {α : Type} (l : List α) (d : α) {i : Nat}
    (h : i < l.length) : l.getD i d = l[i] := by
  rw [List.getD_eq_getElem?_getD, List.getElem?_eq_getElem h]
  rfl

/-- In a duplicate-free list, equal entries at two in-bounds positions force
the positions to coincide. -/
theorem nodup_getD_inj {l : List Nat} (hnd : l.Nodup) {i j : Nat}
    (hi : i < l.length) (hj : j < l.length) (h : l.getD i 0 = l.getD j 0) :
    i = j := by
  rw [getD_eq_getElem' l 0 hi, getD_eq_getElem' l 0 hj] at h
  have heq := List.nodup_iff_injective_get.mp hnd
    (show l.get ⟨i, hi⟩ = l.get ⟨j, hj⟩ by simpa using h)
  exact congrArg Fin.val heq

/-- A cell of a solved grid lies in `1..N`. -/
theorem sudokuGrid_cell_range {N bs : Nat} {g : List (List Nat)}
    (hg : isSudokuGrid N bs g) :
    ∀ r < N, ∀ c < N, 1 ≤ getCell g r c ∧ getCell g r c ≤ N := by
  intro r hr c hc
  obtain ⟨hlen, hrows, hrowperm, _, _⟩ := hg
  have hrl : r < g.length := by omega
  have hrowg : g.getD r [] = g[r] := getD_eq_getElem' g [] hrl
  have hrowlen : g[r].length = N := hrows _ (List.getElem_mem hrl)
  have hcl : c < g[r].length := by omega
  have hcell : getCell g r c = g[r][c] := by
    rw [getCell, hrowg, getD_eq_getElem' _ 0 hcl]
  have hmem : getCell g r c ∈ g.getD r [] := by
    rw [hcell, hrowg]
    exact List.getElem_mem hcl
  have hx := (hrowperm r hr).mem_iff.mp hmem
  rw [List.mem_range'_1] at hx
  omega

/-- Distinct unit-sharing cells of a solved grid hold different values. -/
theorem sudokuGrid_cell_diff {N bs : Nat} {g : List (List Nat)}
    (hsq : bs * bs = N) (hg : isSudokuGrid N bs g) :
    ∀ u w : Var, u.1 < N → u.2 < N → w.1 < N → w.2 < N → u ≠ w →
      sharesUnit bs u w = true → getCell g u.1 u.2 ≠ getCell g w.1 w.2 := by
  intro u w hu1 hu2 hw1 hw2 hne hsh heq
  obtain ⟨hlen, hrows, hrowperm, hcolperm, hboxperm⟩ := hg
  have hbs : 0 < bs := by
    rcases Nat.eq_zero_or_pos bs with h0 | h
    · subst h0
      omega
    · exact h
  simp only [sharesUnit, Bool.or_eq_true, Bool.and_eq_true, beq_iff_eq] at hsh
  rcases hsh with (hr | hc) | ⟨hb1, hb2⟩
  · -- same row
    have hcne : u.2 ≠ w.2 := by
      intro h2
      exact hne (Prod.ext_iff.mpr ⟨hr, h2⟩)
    have hrownd : (g.getD u.1 []).Nodup :=
      (hrowperm u.1 hu1).nodup_iff.mpr (List.nodup_range' 1 N)
    have hrl : u.1 < g.length := by omega
    have hrowlen : (g.getD u.1 []).length = N := by
      rw [getD_eq_getElem' g [] hrl]
      exact hrows _ (List.getElem_mem hrl)
    refine hcne (nodup_getD_inj hrownd (by omega) (by omega) ?_)
    rw [getCell, getCell, ← hr] at heq
    exact heq
  · -- same column
    have hrne : u.1 ≠ w.1 := by
      intro h1
      exact hne (Prod.ext_iff.mpr ⟨h1, hc⟩)
    have hcolnd : ((List.range N).map (fun r => getCell g r u.2)).Nodup :=
      (hcolperm u.2 hu2).nodup_iff.mpr (List.nodup_range' 1 N)
    have hcollen : ((List.range N).map (fun r => getCell g r u.2)).length = N := by
      rw [List.length_map, List.length_range]
    have hcolget : ∀ i, i < N →
        ((List.range N).map (fun r => getCell g r u.2)).getD i 0 = getCell g i u.2 := by
      intro i hi
      have hil : i < ((List.range N).map (fun r => getCell g r u.2)).length := by omega
      rw [getD_eq_getElem' _ 0 hil, List.getElem_map, List.getElem_range]
    refine hrne (nodup_getD_inj hcolnd (by omega) (by omega) ?_)
    rw [hcolget u.1 hu1, hcolget w.1 hw1]
    rw [← hc] at heq
    exact heq
  · -- same box
    have hbi : u.1 / bs < bs := by
      rw [Nat.div_lt_iff_lt_mul hbs]
      omega
    have hbj : u.2 / bs < bs := by
      rw [Nat.div_lt_iff_lt_mul hbs]
      omega
    have humem : u ∈ boxCells bs (u.1 / bs) (u.2 / bs) := by
      refine mem_boxCells.mpr ⟨u.1 % bs, Nat.mod_lt _ hbs, u.2 % bs, Nat.mod_lt _ hbs, ?_⟩
      refine Prod.ext_iff.mpr ⟨?_, ?_⟩ <;>
        simp only [Nat.mul_comm, Nat.div_add_mod]
    have hwmem : w ∈ boxCells bs (u.1 / bs) (u.2 / bs) := by
      refine mem_boxCells.mpr ⟨w.1 % bs, Nat.mod_lt _ hbs, w.2 % bs, Nat.mod_lt _ hbs, ?_⟩
      rw [hb1, hb2]
      refine Prod.ext_iff.mpr ⟨?_, ?_⟩ <;>
        simp only [Nat.mul_comm, Nat.div_add_mod]
    have hboxnd : (((boxCells bs (u.1 / bs) (u.2 / bs))).map
        (fun v => getCell g v.1 v.2)).Nodup :=
      (hboxperm _ hbi _ hbj).nodup_iff.mpr (List.nodup_range' 1 N)
    exact hne (List.inj_on_of_nodup_map hboxnd humem hwmem heq)

/-- Two `N`-by-`N` grids with the same cells are equal. -/
theorem grid_ext {N : Nat} {g1 g2 : List (List Nat)}
    (h1 : g1.length = N) (h1r : ∀ row ∈ g1, row.length = N)
    (h2 : g2.length = N) (h2r : ∀ row ∈ g2, row.length = N)
    (h : ∀ r < N, ∀ c < N, getCell g1 r c = getCell g2 r c) : g1 = g2 := by
  apply List.ext_getElem (by omega)
  intro r hr1 hr2
  apply List.ext_getElem
  · rw [h1r _ (List.getElem_mem hr1), h2r _ (List.getElem_mem hr2)]
  · intro c hc1 hc2
    have hrN : r < N := by omega
    have hcN : c < N := by
      have := h1r _ (List.getElem_mem hr1)
      omega
    have e1 : getCell g1 r c = g1[r][c] := by
      rw [getCell, getD_eq_getElem' g1 [] hr1, getD_eq_getElem' _ 0 hc1]
    have e2 : getCell g2 r c = g2[r][c] := by
      rw [getCell, getD_eq_getElem' g2 [] hr2, getD_eq_getElem' _ 0 hc2]
    rw [← e1, ← e2]
    exact h r hrN c hcN

/-- Every row of a merged grid has length `N`. -/
theorem mergedGrid_rows (board : List (List Nat)) (N : Nat) (a : Assignment) :
    ∀ row ∈ mergedGrid board N a, row.length = N := by
  intro row hrow
  rcases List.mem_map.mp hrow with ⟨r, _, rfl⟩
  rw [List.length_map, List.length_range]

/-- The merged grid agrees with the assignment it merges. -/
theorem agreesWith_merged {N : Nat} {board : List (List Nat)} {a : Assignment}
    (hk : keysOK (mkSudokuCSP N (some board)) a) :
    agreesWith (mergedGrid board N a) a := by
  rintro ⟨⟨r, c⟩, x⟩ hq
  obtain ⟨h1, h2, h0⟩ := mem_vars_mk.mp (hk.2 _ hq)
  dsimp only at h1 h2 h0 ⊢
  have h0' : getCell board r c = 0 := h0
  rw [getCell_mergedGrid h1 h2, mergedCell, if_pos h0', lookupA_of_mem hk.1 hq]
  rfl

/-- Under the search invariants, a total assignment merges to a completion
of the board. -/
theorem merged_completion_of {N : Nat} {board : List (List Nat)}
    (hsq : (mkSudokuCSP N (some board)).box_size *
      (mkSudokuCSP N (some board)).box_size = N)
    (hvals : ∀ r < N, ∀ c < N, getCell board r c ≤ N)
    (hfill : ∀ u ∈ cellList N, ∀ w ∈ cellList N, u ≠ w →
      sharesUnit (mkSudokuCSP N (some board)).box_size u w = true →
      getCell board u.1 u.2 ≠ 0 → getCell board w.1 w.2 ≠ 0 →
      getCell board u.1 u.2 ≠ getCell board w.1 w.2)
    {a : Assignment}
    (hk : keysOK (mkSudokuCSP N (some board)) a)
    (ha : assignOK N (mkSudokuCSP N (some board)).box_size board a)
    (hlen : a.length = (mkSudokuCSP N (some board)).vars.length) :
    isCompletion board N (mkSudokuCSP N (some board)).box_size
      (mergedGrid board N a) := by
  have htot := lookupA_total (vars_nodup_mk N (some board)) hk hlen
  constructor
  · apply merged_isSudokuGrid hsq
    · exact merged_cell_range_of hvals ha htot
    · refine merged_cell_diff_of ?_ ha htot
      intro u w h1 h2 h3 h4 hne hsh hf1 hf2
      exact hfill u (mem_cellList.mpr ⟨h1, h2⟩) w (mem_cellList.mpr ⟨h3, h4⟩)
        hne hsh hf1 hf2
  · intro r hr c hc hf
    rw [getCell_mergedGrid hr hc, mergedCell, if_neg hf]

/-- A completion agreeing with a total assignment is the merged grid. -/
theorem completion_eq_merged {N : Nat} {board : List (List Nat)} {a : Assignment}
    {g : List (List Nat)}
    (hk : keysOK (mkSudokuCSP N (some board)) a)
    (hlen : a.length = (mkSudokuCSP N (some board)).vars.length)
    (hg : isCompletion board N (mkSudokuCSP N (some board)).box_size g)
    (hag : agreesWith g a) :
    g = mergedGrid board N a := by
  have htot := lookupA_total (vars_nodup_mk N (some board)) hk hlen
  obtain ⟨⟨hglen, hgrows, _, _, _⟩, hgagree⟩ := hg
  apply grid_ext hglen hgrows (mergedGrid_length board N a) (mergedGrid_rows board N a)
  intro r hr c hc
  rw [getCell_mergedGrid hr hc, mergedCell]
  by_cases h0 : getCell board r c = 0
  · rw [if_pos h0]
    obtain ⟨x, hxmem, hxlook⟩ := htot (r, c) (mem_vars_mk.mpr ⟨hr, hc, h0⟩)
    rw [hxlook]
    exact hag _ hxmem
  · rw [if_neg h0]
    exact hgagree r hr c hc h0

/-- Insertion by key permutes the inserted element in. -/
theorem insertByKey_perm (f : Nat → Nat) (x : Nat) :
    ∀ (l : List Nat), (insertByKey f x l).Perm (x :: l) := by
  intro l
  induction l with
  | nil => exact List.Perm.refl _
  | cons z rest ih =>
    rw [insertByKey]
    split
    · exact (ih.cons z).trans (List.Perm.swap x z rest)
    · exact List.Perm.refl _

/-- Sorting by key permutes the list. -/
theorem sortByKey_perm (f : Nat → Nat) :
    ∀ (l : List Nat), (sortByKey f l).Perm l := by
  intro l
  induction l with
  | nil => exact List.Perm.refl _
  | cons z rest ih =>
    rw [sortByKey]
    exact (insertByKey_perm f z (sortByKey f rest)).trans (ih.cons z)

/-- Pointwise effect of a successful pruning loop over a duplicate-free
variable list: a unit-sharing neighbour other than the pinned variable
loses exactly the assigned value, every other variable in the list keeps
its domain. -/
theorem fcLoop_pointwise {csp : SudokuCSP} {var : Var} {value : Nat} :
    ∀ {l : List Var}, l.Nodup →
      ∀ {nd : Domains} {rm : Removed} {nd' : Domains} {rm' : Removed},
      fcLoop csp var value l nd rm = (some nd', rm') →
      ∀ v ∈ l, v ≠ var →
        (sharesUnit csp.box_size v var = true → nd' v = (nd v).erase value) ∧
        (sharesUnit csp.box_size v var = false → nd' v = nd v) := by
  intro l
  induction l with
  | nil =>
    intro _ nd rm nd' rm' h v hv
    cases hv
  | cons u rest ih =>
    intro hnd nd rm nd' rm' h v hv hvne
    rw [List.nodup_cons] at hnd
    rw [fcLoop] at h
    by_cases hu : u = var
    · rw [if_pos hu] at h
      rcases List.mem_cons.mp hv with rfl | hv'
      · exact absurd hu hvne
      · exact ih hnd.2 h v hv' hvne
    · rw [if_neg hu] at h
      by_cases hsh : sharesUnit csp.box_size u var = true
      · rw [if_pos hsh] at h
        by_cases hpres : ((nd u).contains value) = true
        · rw [if_pos hpres] at h
          by_cases hemp : (nd u).erase value = []
          · rw [if_pos hemp] at h
            cases h
          · rw [if_neg hemp] at h
            rcases List.mem_cons.mp hv with rfl | hv'
            · have hpre := fcLoop_preserve h v (Or.inl hnd.1)
              rw [updateF] at hpre
              rw [if_pos rfl] at hpre
              refine ⟨fun _ => hpre, fun hf => ?_⟩
              rw [hf] at hsh
              cases hsh
            · have hvu : v ≠ u := fun he => hnd.1 (he ▸ hv')
              have hthis := ih hnd.2 h v hv' hvne
              simp only [updateF, if_neg hvu] at hthis
              exact hthis
        · rw [if_neg hpres] at h
          by_cases hemp : nd u = []
          · rw [if_pos hemp] at h
            cases h
          · rw [if_neg hemp] at h
            rcases List.mem_cons.mp hv with rfl | hv'
            · have hpre := fcLoop_preserve h v (Or.inl hnd.1)
              refine ⟨fun _ => ?_, fun hf => ?_⟩
              · have hnm : value ∉ nd v := by
                  intro hm
                  rw [List.contains_iff_exists_mem_beq] at hpres
                  exact hpres ⟨value, hm, by simp⟩
                rw [hpre, List.erase_of_not_mem hnm]
              · rw [hf] at hsh
                cases hsh
            · exact ih hnd.2 h v hv' hvne
      · rw [if_neg hsh] at h
        rcases List.mem_cons.mp hv with rfl | hv'
        · have hpre := fcLoop_preserve h v (Or.inl hnd.1)
          refine ⟨fun ht => ?_, fun _ => hpre⟩
          rw [ht] at hsh
          exact absurd rfl hsh
        · exact ih hnd.2 h v hv' hvne

/-- Pointwise description of a successful forward check: the pinned
variable holds exactly the value, unit-sharing engine variables lose the
value, everything else is untouched. -/
theorem fc_pointwise {csp : SudokuCSP} {var : Var} {value : Nat}
    {domains nd : Domains} {rm : Removed}
    (hvnd : csp.vars.Nodup)
    (hfc : csp.forward_check var value domains = (some nd, rm)) :
    nd var = [value] ∧
    ∀ v, v ≠ var →
      ((v ∈ csp.vars ∧ sharesUnit csp.box_size v var = true) →
        nd v = (domains v).erase value) ∧
      ((v ∉ csp.vars ∨ sharesUnit csp.box_size v var = false) →
        nd v = domains v) := by
  rw [SudokuCSP.forward_check] at hfc
  constructor
  · have := fcLoop_preserve hfc var (Or.inr rfl)
    rw [updateF] at this
    rw [if_pos rfl] at this
    exact this
  · intro v hvne
    have hnd0 : updateF domains var [value] v = domains v := by
      rw [updateF]
      rw [if_neg hvne]
    constructor
    · rintro ⟨hvm, hsh⟩
      have := (fcLoop_pointwise hvnd hfc v hvm hvne).1 hsh
      rw [hnd0] at this
      exact this
    · rintro (hvm | hsh)
      · have := fcLoop_preserve hfc v (Or.inl hvm)
        rw [hnd0] at this
        exact this
      · by_cases hvm : v ∈ csp.vars
        · have := (fcLoop_pointwise hvnd hfc v hvm hvne).2 hsh
          rw [hnd0] at this
          exact this
        · have := fcLoop_preserve hfc v (Or.inl hvm)
          rw [hnd0] at this
          exact this

/-- Event payloads distribute over appended event lists. -/
theorem solutionsOf_append (l1 l2 : List SEvent) :
    solutionsOf (l1 ++ l2) = solutionsOf l1 ++ solutionsOf l2 := by
  rw [solutionsOf, solutionsOf, solutionsOf, List.filterMap_append]

/-- Assigned variables are pinned: the working domain of every assigned
variable is the singleton list of its assigned value. -/
def pinnedOK (d : Domains) (a : Assignment) : Prop :=
  ∀ q ∈ a, d q.1 = [q.2]

/-- Completion compatibility: every completion of the board that agrees
with the assignment takes, on each unassigned variable, a value still
present in that variable's working domain. -/
def compatOK (N : Nat) (board : List (List Nat)) (csp : SudokuCSP)
    (d : Domains) (a : Assignment) : Prop :=
  ∀ g, isCompletion board N csp.box_size g → agreesWith g a →
    ∀ v ∈ csp.vars, lookupA a v = none → getCell g v.1 v.2 ∈ d v

/-- The constructor's pruning keeps every value that clashes with no
scanned filled cell. -/
theorem prune_keeps (bs : Nat) (board : List (List Nat)) :
    ∀ (L : List Var) (d : Domains) (v : Var) (x : Nat),
      x ∈ d v →
      (∀ u ∈ L, getCell board u.1 u.2 ≠ 0 → sharesUnit bs v u = true →
        x ≠ getCell board u.1 u.2) →
      x ∈ (L.foldl (pruneStep bs board) d) v := by
  intro L
  induction L with
  | nil =>
    intro d v x hx _
    exact hx
  | cons u rest ih =>
    intro d v x hx hav
    rw [List.foldl_cons]
    apply ih
    · rw [pruneStep]
      by_cases hf : getCell board u.1 u.2 = 0
      · rw [if_neg (fun hcon => hcon hf)]
        exact hx
      · rw [if_pos hf, removeConflicts]
        by_cases hsh : sharesUnit bs v (u.1, u.2) = true
        · rw [if_pos hsh]
          refine (List.mem_erase_of_ne ?_).mpr hx
          have hsh' : sharesUnit bs v u = true := by
            rw [← Prod.mk.eta (p := u)] at hsh
            exact hsh
          exact hav u (List.mem_cons_self u rest) hf hsh'
        · rw [if_neg hsh]
          exact hx
    · intro w hw hf hsh
      exact hav w (List.mem_cons_of_mem _ hw) hf hsh

/-- The initial domains are completion-compatible: every completion value
of an empty cell survives the constructor's pruning. -/
theorem initial_compatOK (N : Nat) (board : List (List Nat))
    (hsq : (mkSudokuCSP N (some board)).box_size *
      (mkSudokuCSP N (some board)).box_size = N) :
    compatOK N board (mkSudokuCSP N (some board))
      (mkSudokuCSP N (some board)).initial_domains [] := by
  intro g hg _ v hv _
  obtain ⟨hv1, hv2, hv0⟩ := mem_vars_mk.mp hv
  have hv0' : getCell board v.1 v.2 = 0 := hv0
  have hrange := sudokuGrid_cell_range hg.1 v.1 hv1 v.2 hv2
  have hbase : getCell g v.1 v.2 ∈ baseDomains (initVars N board) N v := by
    rw [baseDomains, if_pos (show v ∈ initVars N board from hv), List.mem_range'_1]
    omega
  show getCell g v.1 v.2 ∈
    (pruneFilled (intSqrt N) N board (baseDomains (initVars N board) N)) v
  rw [pruneFilled_eq_foldl]
  apply prune_keeps _ board (cellList N) _ v _ hbase
  intro u hu hf hsh heq
  have hucell := mem_cellList.mp hu
  have hgu : getCell g u.1 u.2 = getCell board u.1 u.2 :=
    hg.2 u.1 hucell.1 u.2 hucell.2 hf
  have hvune : v ≠ u := by
    intro he
    rw [← he] at hf
    exact hf hv0'
  have hdiff := sudokuGrid_cell_diff hsq hg.1 v u hv1 hv2 hucell.1 hucell.2 hvune hsh
  rw [hgu, heq] at hdiff
  exact hdiff rfl

/-- A successful forward check keeps assigned variables pinned. -/
theorem pinned_after_fc {N : Nat} {board : List (List Nat)}
    (hsq : (mkSudokuCSP N (some board)).box_size *
      (mkSudokuCSP N (some board)).box_size = N)
    {a : Assignment} {d : Domains} {var : Var} {value : Nat}
    {nd : Domains} {rm : Removed}
    (hk : keysOK (mkSudokuCSP N (some board)) a)
    (hvm : var ∈ (mkSudokuCSP N (some board)).vars)
    (hvu : lookupA a var = none)
    (hp : pinnedOK d a)
    (hcons : (mkSudokuCSP N (some board)).is_consistent var value a = true)
    (hfc : (mkSudokuCSP N (some board)).forward_check var value d = (some nd, rm)) :
    pinnedOK nd (a ++ [(var, value)]) := by
  obtain ⟨hpin, hpt⟩ := fc_pointwise (vars_nodup_mk N (some board)) hfc
  obtain ⟨hvr, hvc, _⟩ := mem_vars_mk.mp hvm
  rintro ⟨qv, qx⟩ hq
  rcases List.mem_append.mp hq with hq' | hq'
  · have hqne : qv ≠ var := fun he => (lookupA_eq_none.mp hvu (qv, qx) hq') he
    have hqvars : qv ∈ (mkSudokuCSP N (some board)).vars := hk.2 (qv, qx) hq'
    rcases Bool.eq_false_or_eq_true
        (sharesUnit (mkSudokuCSP N (some board)).box_size qv var) with hsh | hsh
    · rw [(hpt qv hqne).1 ⟨hqvars, hsh⟩, hp (qv, qx) hq']
      apply List.erase_of_not_mem
      intro hm
      rw [List.mem_singleton] at hm
      obtain ⟨h1, h2, _⟩ := mem_vars_mk.mp hqvars
      have hfalse := (is_consistent_false_iff hsq hvr hvc value a).mpr
        ⟨qv, h1, h2, hsh, by rw [lookupA_of_mem hk.1 hq', hm]⟩
      rw [hcons] at hfalse
      cases hfalse
    · rw [(hpt qv hqne).2 (Or.inr hsh)]
      exact hp (qv, qx) hq'
  · simp only [List.mem_singleton, Prod.mk.injEq] at hq'
    rw [hq'.1, hq'.2] at *
    exact hpin

/-- A successful forward check keeps completion compatibility for the
extended assignment. -/
theorem compat_after_fc {N : Nat} {board : List (List Nat)}
    (hsq : (mkSudokuCSP N (some board)).box_size *
      (mkSudokuCSP N (some board)).box_size = N)
    {a : Assignment} {d : Domains} {var : Var} {value : Nat}
    {nd : Domains} {rm : Removed}
    (hvm : var ∈ (mkSudokuCSP N (some board)).vars)
    (hcompat : compatOK N board (mkSudokuCSP N (some board)) d a)
    (hfc : (mkSudokuCSP N (some board)).forward_check var value d = (some nd, rm)) :
    compatOK N board (mkSudokuCSP N (some board)) nd (a ++ [(var, value)]) := by
  obtain ⟨hpin, hpt⟩ := fc_pointwise (vars_nodup_mk N (some board)) hfc
  intro g hg hag v hv hvun
  rw [agreesWith_append] at hag
  rw [lookupA_append_single] at hvun
  rcases hold : lookupA a v with _ | y
  · rw [hold] at hvun
    have hvvar : var ≠ v := by
      intro he
      rw [if_pos he] at hvun
      cases hvun
    have hbase := hcompat g hg hag.1 v hv hold
    rcases Bool.eq_false_or_eq_true
        (sharesUnit (mkSudokuCSP N (some board)).box_size v var) with hsh | hsh
    · rw [(hpt v (Ne.symm hvvar)).1 ⟨hv, hsh⟩]
      refine (List.mem_erase_of_ne ?_).mpr hbase
      obtain ⟨h1, h2, _⟩ := mem_vars_mk.mp hv
      obtain ⟨h3, h4, _⟩ := mem_vars_mk.mp hvm
      have hdiff := sudokuGrid_cell_diff hsq hg.1 v var h1 h2 h3 h4 (Ne.symm hvvar) hsh
      rw [hag.2] at hdiff
      exact hdiff
    · rw [(hpt v (Ne.symm hvvar)).2 (Or.inr hsh)]
      exact hbase
  · rw [hold] at hvun
    cases hvun

/-- A value the consistency check rejects is taken by no completion that
agrees with the assignment. -/
theorem no_completion_of_inconsistent {N : Nat} {board : List (List Nat)}
    (hsq : (mkSudokuCSP N (some board)).box_size *
      (mkSudokuCSP N (some board)).box_size = N)
    {a : Assignment} {var : Var} {value : Nat}
    (hk : keysOK (mkSudokuCSP N (some board)) a)
    (hvm : var ∈ (mkSudokuCSP N (some board)).vars)
    (hvu : lookupA a var = none)
    (hcons : (mkSudokuCSP N (some board)).is_consistent var value a = false) :
    ∀ g, isCompletion board N (mkSudokuCSP N (some board)).box_size g →
      agreesWith g a → getCell g var.1 var.2 ≠ value := by
  intro g hg hag heq
  obtain ⟨hvr, hvc, _⟩ := mem_vars_mk.mp hvm
  obtain ⟨u, h1, h2, hsh, hlook⟩ := (is_consistent_false_iff hsq hvr hvc value a).mp hcons
  have hgu : getCell g u.1 u.2 = value := hag (u, value) (lookupA_mem hlook)
  have hune : u ≠ var := by
    intro he
    rw [he, hvu] at hlook
    cases hlook
  have hdiff := sudokuGrid_cell_diff hsq hg.1 u var h1 h2 hvr hvc hune hsh
  rw [hgu, heq] at hdiff
  exact hdiff rfl

/-- A value on which forward checking wipes out a domain is taken by no
completion that agrees with the assignment. -/
theorem no_completion_of_fcfail {N : Nat} {board : List (List Nat)}
    (hsq : (mkSudokuCSP N (some board)).box_size *
      (mkSudokuCSP N (some board)).box_size = N)
    {a : Assignment} {d : Domains} {var : Var} {value : Nat} {rm : Removed}
    (hk : keysOK (mkSudokuCSP N (some board)) a)
    (hp : pinnedOK d a)
    (hcompat : compatOK N board (mkSudokuCSP N (some board)) d a)
    (hvm : var ∈ (mkSudokuCSP N (some board)).vars)
    (hcons : (mkSudokuCSP N (some board)).is_consistent var value a = true)
    (hfail : (mkSudokuCSP N (some board)).forward_check var value d = (none, rm)) :
    ∀ g, isCompletion board N (mkSudokuCSP N (some board)).box_size g →
      agreesWith g a → getCell g var.1 var.2 ≠ value := by
  intro g hg hag heq
  rw [SudokuCSP.forward_check] at hfail
  obtain ⟨u, humem, hune, hsh, hall⟩ := fcLoop_fail hfail
  have hall' : ∀ x ∈ d u, x = value := by
    intro x hx
    apply hall
    rw [updateF]
    rw [if_neg hune]
    exact hx
  obtain ⟨hu1, hu2, _⟩ := mem_vars_mk.mp humem
  obtain ⟨hvr, hvc, _⟩ := mem_vars_mk.mp hvm
  rcases hua : lookupA a u with _ | y
  · have hmem := hcompat g hg hag u humem hua
    have hval : getCell g u.1 u.2 = value := hall' _ hmem
    have hdiff := sudokuGrid_cell_diff hsq hg.1 u var hu1 hu2 hvr hvc hune hsh
    rw [hval, heq] at hdiff
    exact hdiff rfl
  · have hpinu : d u = [y] := hp (u, y) (lookupA_mem hua)
    have hyv : y = value := hall' y (by rw [hpinu]; exact List.mem_singleton.mpr rfl)
    have hfalse := (is_consistent_false_iff hsq hvr hvc value a).mpr
      ⟨u, hu1, hu2, hsh, by rw [hua, hyv]⟩
    rw [hcons] at hfalse
    cases hfalse

/-- Completeness and uniqueness of the value loop: the merged grids of its
solution events are exactly, and without repetition, the completions of the
board that agree with the current assignment and take one of the looped
values at the selected variable — assuming the recursive call enjoys the
analogous property one level deeper. -/
theorem btLoop_complete {N : Nat} {board : List (List Nat)}
    (hsq : (mkSudokuCSP N (some board)).box_size *
      (mkSudokuCSP N (some board)).box_size = N)
    {var : Var} {a : Assignment}
    {child : Domains → Assignment → Stats → Option (List SEvent × Stats)}
    (hvm : var ∈ (mkSudokuCSP N (some board)).vars)
    (hvu : lookupA a var = none)
    (hk : keysOK (mkSudokuCSP N (some board)) a)
    (ha : assignOK N (mkSudokuCSP N (some board)).box_size board a)
    {d : Domains}
    (hd : domOK N (mkSudokuCSP N (some board)).box_size board
      (mkSudokuCSP N (some board)) d a)
    (hp : pinnedOK d a)
    (hcompat : compatOK N board (mkSudokuCSP N (some board)) d a)
    (hchild : ∀ nd x s cevs s2,
      keysOK (mkSudokuCSP N (some board)) (a ++ [(var, x)]) →
      assignOK N (mkSudokuCSP N (some board)).box_size board (a ++ [(var, x)]) →
      domOK N (mkSudokuCSP N (some board)).box_size board (mkSudokuCSP N (some board))
        nd (a ++ [(var, x)]) →
      pinnedOK nd (a ++ [(var, x)]) →
      compatOK N board (mkSudokuCSP N (some board)) nd (a ++ [(var, x)]) →
      child nd (a ++ [(var, x)]) s = some (cevs, s2) →
      ((solutionsOf cevs).map (fun p => mergedGrid board N p)).Nodup ∧
        ∀ g, g ∈ (solutionsOf cevs).map (fun p => mergedGrid board N p) ↔
          (isCompletion board N (mkSudokuCSP N (some board)).box_size g ∧
            agreesWith g (a ++ [(var, x)]))) :
    ∀ (values : List Nat), values.Nodup → (∀ x ∈ values, x ∈ d var) →
      ∀ s evs s',
        btLoop (mkSudokuCSP N (some board)) var child values d a s = some (evs, s') →
        ((solutionsOf evs).map (fun p => mergedGrid board N p)).Nodup ∧
        ∀ g, g ∈ (solutionsOf evs).map (fun p => mergedGrid board N p) ↔
          (isCompletion board N (mkSudokuCSP N (some board)).box_size g ∧
            agreesWith g a ∧ getCell g var.1 var.2 ∈ values) := by
  intro values
  induction values with
  | nil =>
    intro _ _ s evs s' h
    simp only [btLoop, Option.some.injEq, Prod.mk.injEq] at h
    rw [← h.1]
    constructor
    · exact List.nodup_nil
    · intro g
      constructor
      · intro hg
        exact absurd hg (List.not_mem_nil g)
      · rintro ⟨_, _, hmem⟩
        exact absurd hmem (List.not_mem_nil _)
  | cons value rest ih =>
    intro hvnd hvsub s evs s' h
    rw [List.nodup_cons] at hvnd
    have hsub' : ∀ x ∈ rest, x ∈ d var :=
      fun x hx => hvsub x (List.mem_cons_of_mem value hx)
    rw [btLoop] at h
    by_cases hc : (mkSudokuCSP N (some board)).is_consistent var value a
    · rw [if_pos hc] at h
      have ha1 : dictSet a var value = a ++ [(var, value)] := dictSet_of_none hvu
      have ha2 : dictDel (dictSet a var value) var = a := by
        rw [ha1]
        exact dictDel_append_single hvu
      rcases hfc : (mkSudokuCSP N (some board)).forward_check var value d with ⟨o, removed⟩
      rw [hfc] at h
      rcases o with _ | nd
      · dsimp only at h
        rw [ha2] at h
        rcases hl : btLoop (mkSudokuCSP N (some board)) var child rest d a
            { s with backtracks := s.backtracks + 1 } with _ | ⟨evs2, s2⟩
        · rw [hl] at h
          cases h
        · rw [hl] at h
          simp only [Option.some.injEq, Prod.mk.injEq] at h
          obtain ⟨hnd2, hiff2⟩ := ih hvnd.2 hsub' _ _ _ hl
          have hnone := no_completion_of_fcfail hsq hk hp hcompat hvm hc hfc
          rw [← h.1]
          rw [show solutionsOf (SEvent.assign var value (dictSet a var value) ::
              SEvent.fc_fail var value removed ::
              SEvent.unassign var a :: evs2) = solutionsOf evs2 from rfl]
          refine ⟨hnd2, ?_⟩
          intro g
          constructor
          · intro hmem
            obtain ⟨hcompl, hag, hcell⟩ := (hiff2 g).mp hmem
            exact ⟨hcompl, hag, List.mem_cons_of_mem _ hcell⟩
          · rintro ⟨hcompl, hag, hcell⟩
            rcases List.mem_cons.mp hcell with hcv | hcv
            · exact absurd hcv (hnone g hcompl hag)
            · exact (hiff2 g).mpr ⟨hcompl, hag, hcv⟩
      · dsimp only at h
        rcases hch : child nd (dictSet a var value) s with _ | ⟨cevs, s2⟩
        · rw [hch] at h
          cases h
        · rw [hch] at h
          dsimp only at h
          rw [ha2] at h
          rcases hl : btLoop (mkSudokuCSP N (some board)) var child rest d a
              { s2 with backtracks := s2.backtracks + 1 } with _ | ⟨evs2, s3⟩
          · rw [hl] at h
            cases h
          · rw [hl] at h
            simp only [Option.some.injEq, Prod.mk.injEq] at h
            obtain ⟨hknew, hanew⟩ := assign_preserves hsq hk ha hd hvm hvu
              (hvsub value (List.mem_cons_self value rest)) hc
            have hdnew := @domOK_after_fc N board a d var value nd removed hd hfc
            have hpnew := pinned_after_fc hsq hk hvm hvu hp hc hfc
            have hcnew := compat_after_fc hsq hvm hcompat hfc
            rw [ha1] at hch
            obtain ⟨hndc, hiffc⟩ :=
              hchild nd value s cevs s2 hknew hanew hdnew hpnew hcnew hch
            obtain ⟨hnd2, hiff2⟩ := ih hvnd.2 hsub' _ _ _ hl
            rw [← h.1]
            have hsols : solutionsOf
                (SEvent.assign var value (dictSet a var value) ::
                 SEvent.fc_ok var value removed ::
                 (cevs ++ SEvent.unassign var a :: evs2)) =
                solutionsOf cevs ++ solutionsOf evs2 := by
              show solutionsOf (cevs ++ SEvent.unassign var a :: evs2) = _
              rw [solutionsOf_append]
              rfl
            rw [hsols, List.map_append]
            constructor
            · rw [List.nodup_append]
              refine ⟨hndc, hnd2, ?_⟩
              intro g hg1 hg2
              obtain ⟨hcompl, hagA1⟩ := (hiffc g).mp hg1
              rw [agreesWith_append] at hagA1
              obtain ⟨_, _, hcell⟩ := (hiff2 g).mp hg2
              rw [hagA1.2] at hcell
              exact hvnd.1 hcell
            · intro g
              rw [List.mem_append]
              constructor
              · rintro (hg1 | hg2)
                · obtain ⟨hcompl, hagA1⟩ := (hiffc g).mp hg1
                  rw [agreesWith_append] at hagA1
                  exact ⟨hcompl, hagA1.1, List.mem_cons.mpr (Or.inl hagA1.2)⟩
                · obtain ⟨hcompl, hag3, hcell⟩ := (hiff2 g).mp hg2
                  exact ⟨hcompl, hag3, List.mem_cons_of_mem _ hcell⟩
              · rintro ⟨hcompl, hag3, hcell⟩
                rcases List.mem_cons.mp hcell with hcv | hcv
                · refine Or.inl ((hiffc g).mpr ⟨hcompl, ?_⟩)
                  rw [agreesWith_append]
                  exact ⟨hag3, hcv⟩
                · exact Or.inr ((hiff2 g).mpr ⟨hcompl, hag3, hcv⟩)
    · rw [if_neg hc] at h
      rcases hl : btLoop (mkSudokuCSP N (some board)) var child rest d a s
          with _ | ⟨evs2, s2⟩
      · rw [hl] at h
        cases h
      · rw [hl] at h
        simp only [Option.some.injEq, Prod.mk.injEq] at h
        obtain ⟨hnd2, hiff2⟩ := ih hvnd.2 hsub' _ _ _ hl
        have hcfalse : (mkSudokuCSP N (some board)).is_consistent var value a = false := by
          rcases Bool.eq_false_or_eq_true
              ((mkSudokuCSP N (some board)).is_consistent var value a) with hb | hb
          · exact absurd hb hc
          · exact hb
        have hnone := no_completion_of_inconsistent hsq hk hvm hvu hcfalse
        rw [← h.1]
        rw [show solutionsOf (SEvent.pruned var value :: evs2) = solutionsOf evs2 from rfl]
        refine ⟨hnd2, ?_⟩
        intro g
        constructor
        · intro hmem
          obtain ⟨hcompl, hag, hcell⟩ := (hiff2 g).mp hmem
          exact ⟨hcompl, hag, List.mem_cons_of_mem _ hcell⟩
        · rintro ⟨hcompl, hag, hcell⟩
          rcases List.mem_cons.mp hcell with hcv | hcv
          · exact absurd hcv (hnone g hcompl hag)
          · exact (hiff2 g).mpr ⟨hcompl, hag, hcv⟩

/-- Completeness and uniqueness of the drained generator: the merged grids
of its solution events are exactly, and without repetition, the completions
of the board that agree with the entry assignment. -/
theorem btFuel_complete {N : Nat} {board : List (List Nat)}
    (hsq : (mkSudokuCSP N (some board)).box_size *
      (mkSudokuCSP N (some board)).box_size = N)
    (hvals : ∀ r < N, ∀ c < N, getCell board r c ≤ N)
    (hfill : ∀ u ∈ cellList N, ∀ w ∈ cellList N, u ≠ w →
      sharesUnit (mkSudokuCSP N (some board)).box_size u w = true →
      getCell board u.1 u.2 ≠ 0 → getCell board w.1 w.2 ≠ 0 →
      getCell board u.1 u.2 ≠ getCell board w.1 w.2) :
    ∀ (fuel : Nat) {d : Domains} {a : Assignment} {s : Stats}
      {evs : List SEvent} {s' : Stats},
      keysOK (mkSudokuCSP N (some board)) a →
      assignOK N (mkSudokuCSP N (some board)).box_size board a →
      domOK N (mkSudokuCSP N (some board)).box_size board
        (mkSudokuCSP N (some board)) d a →
      pinnedOK d a →
      compatOK N board (mkSudokuCSP N (some board)) d a →
      btFuel (mkSudokuCSP N (some board)) fuel d a s = some (evs, s') →
      ((solutionsOf evs).map (fun p => mergedGrid board N p)).Nodup ∧
        ∀ g, g ∈ (solutionsOf evs).map (fun p => mergedGrid board N p) ↔
          (isCompletion board N (mkSudokuCSP N (some board)).box_size g ∧
            agreesWith g a) := by
  intro fuel
  induction fuel with
  | zero =>
    intro d a s evs s' _ _ _ _ _ h
    simp [btFuel] at h
  | succ fuel ih =>
    intro d a s evs s' hk ha hd hp hcompat h
    rw [btFuel] at h
    by_cases hterm : a.length = (mkSudokuCSP N (some board)).vars.length
    · rw [if_pos hterm] at h
      simp only [Option.some.injEq, Prod.mk.injEq] at h
      rw [← h.1]
      rw [show solutionsOf [SEvent.solution a] = [a] from rfl]
      constructor
      · exact List.nodup_singleton _
      · intro g
        rw [show ([a].map (fun p => mergedGrid board N p)) =
          [mergedGrid board N a] from rfl]
        rw [List.mem_singleton]
        constructor
        · rintro rfl
          exact ⟨merged_completion_of hsq hvals hfill hk ha hterm,
            agreesWith_merged hk⟩
        · rintro ⟨hcompl, hag⟩
          exact completion_eq_merged hk hterm hcompl hag
    · rw [if_neg hterm] at h
      rcases hs : (mkSudokuCSP N (some board)).select_unassigned_var d a with _ | var
      · rw [hs] at h
        cases h
      · rw [hs] at h
        dsimp only at h
        rcases hl : btLoop (mkSudokuCSP N (some board)) var
            (fun nd a1 s2 => btFuel (mkSudokuCSP N (some board)) fuel nd a1 s2)
            ((mkSudokuCSP N (some board)).order_domain_values var d a) d a
            { s with nodes := s.nodes + 1 } with _ | ⟨evs2, s2⟩
        · rw [hl] at h
          cases h
        · rw [hl] at h
          simp only [Option.some.injEq, Prod.mk.injEq] at h
          obtain ⟨hvm, hvu⟩ := select_mem hs
          have hvarnd : (d var).Nodup := (hd var hvm hvu).1
          have hvalnd : ((mkSudokuCSP N (some board)).order_domain_values var d a).Nodup := by
            rw [SudokuCSP.order_domain_values]
            exact (sortByKey_perm _ _).nodup_iff.mpr hvarnd
          have hvalsub : ∀ x ∈ (mkSudokuCSP N (some board)).order_domain_values var d a,
              x ∈ d var := by
            intro x hx
            rw [SudokuCSP.order_domain_values] at hx
            exact mem_sortByKey.mp hx
          obtain ⟨hndL, hiffL⟩ := btLoop_complete hsq hvm hvu hk ha hd hp hcompat
            (fun nd x s1 cevs s2' hk1 ha1 hd1 hp1 hc1 hch =>
              ih hk1 ha1 hd1 hp1 hc1 hch)
            _ hvalnd hvalsub _ _ _ hl
          rw [← h.1]
          rw [show solutionsOf (SEvent.mrv var (d var) ::
            SEvent.lcv var ((mkSudokuCSP N (some board)).order_domain_values var d a) ::
            evs2) = solutionsOf evs2 from rfl]
          refine ⟨hndL, ?_⟩
          intro g
          rw [hiffL g]
          constructor
          · rintro ⟨hcompl, hag, _⟩
            exact ⟨hcompl, hag⟩
          · rintro ⟨hcompl, hag⟩
            refine ⟨hcompl, hag, ?_⟩
            rw [SudokuCSP.order_domain_values]
            exact mem_sortByKey.mpr (hcompat g hcompl hag var hvm hvu)

/-! ### Claim C7 -/

/-- C7: for a well-formed board (`N`-by-`N` shape with `N` a perfect
square as the constructor computes it, cell values at most `N`, mutually
consistent pre-filled cells), `is_valid_puzzle` returns `true` exactly when
the board has a unique completion satisfying the Sudoku constraints; and
the counting loop returns `false` on any event list containing two
solution events, whatever events follow the second one. -/
theorem C7_is_valid_puzzle (board : List (List Nat))
    (hshape : boardShaped board.length board)
    (hsq : (mkSudokuCSP board.length (some board)).box_size *
      (mkSudokuCSP board.length (some board)).box_size = board.length)
    (hvals : ∀ r < board.length, ∀ c < board.length,
      getCell board r c ≤ board.length)
    (hfill : ∀ u ∈ cellList board.length, ∀ w ∈ cellList board.length, u ≠ w →
      sharesUnit (mkSudokuCSP board.length (some board)).box_size u w = true →
      getCell board u.1 u.2 ≠ 0 → getCell board w.1 w.2 ≠ 0 →
      getCell board u.1 u.2 ≠ getCell board w.1 w.2) :
    (is_valid_puzzle board = true ↔
      ∃! g, isCompletion board board.length
        (mkSudokuCSP board.length (some board)).box_size g) ∧
    ∀ (es1 es2 es3 : List SEvent) (p q : Assignment),
      countSolLoop (es1 ++ SEvent.solution p :: es2 ++ SEvent.solution q :: es3) 0
        = false := by
  constructor
  · have hsome : ((mkSudokuCSP board.length (some board)).backtrack_default
        (solveBound (mkSudokuCSP board.length (some board)))).isSome := by
      apply btFuel_isSome (vars_nodup_mk board.length (some board))
      · exact List.nodup_nil
      · intro p hp
        cases hp
      · rw [unassignedCount_nil, solveBound]
        omega
    rcases hrun : (mkSudokuCSP board.length (some board)).backtrack_default
        (solveBound (mkSudokuCSP board.length (some board))) with _ | ⟨evs, stats⟩
    · rw [hrun] at hsome
      cases hsome
    · have hival : is_valid_puzzle board = countSolLoop evs 0 := by
        simp only [is_valid_puzzle]
        rw [hrun]
      have hrun' : btFuel (mkSudokuCSP board.length (some board))
          (solveBound (mkSudokuCSP board.length (some board)))
          (mkSudokuCSP board.length (some board)).initial_domains []
          { nodes := 0, backtracks := 0, solutions := 0 } = some (evs, stats) := hrun
      have hk0 : keysOK (mkSudokuCSP board.length (some board)) [] :=
        ⟨List.nodup_nil, fun p hp => absurd hp (List.not_mem_nil p)⟩
      have ha0 : assignOK board.length
          (mkSudokuCSP board.length (some board)).box_size board [] :=
        ⟨fun p hp => absurd hp (List.not_mem_nil p),
         fun p hp => absurd hp (List.not_mem_nil p),
         fun p hp => absurd hp (List.not_mem_nil p)⟩
      have hp0 : pinnedOK (mkSudokuCSP board.length (some board)).initial_domains [] :=
        fun q hq => absurd hq (List.not_mem_nil q)
      have hcomplete := btFuel_complete hsq hvals hfill
        (solveBound (mkSudokuCSP board.length (some board)))
        hk0 ha0 (initial_domOK board.length board) hp0
        (initial_compatOK board.length board hsq) hrun'
      have hmem : ∀ g, g ∈ (solutionsOf evs).map
          (fun p => mergedGrid board board.length p) ↔
          isCompletion board board.length
            (mkSudokuCSP board.length (some board)).box_size g := by
        intro g
        rw [hcomplete.2 g]
        constructor
        · rintro ⟨h1, _⟩
          exact h1
        · intro h1
          exact ⟨h1, fun q hq => absurd hq (List.not_mem_nil q)⟩
      rw [hival, countSolLoop_eq evs 0 (by omega), decide_eq_true_iff, Nat.zero_add]
      rw [show (solutionsOf evs).length = ((solutionsOf evs).map
        (fun p => mergedGrid board board.length p)).length from
        (List.length_map _ _).symm]
      exact length_one_iff_existsUnique hcomplete.1 hmem
  · intro es1 es2 es3 p q
    rw [countSolLoop_eq _ 0 (by omega)]
    apply decide_eq_false
    intro hcon
    have hsplit : solutionsOf (es1 ++ SEvent.solution p :: es2 ++ SEvent.solution q :: es3)
        = (solutionsOf es1 ++ p :: solutionsOf es2) ++ (q :: solutionsOf es3) := by
      rw [solutionsOf_append, solutionsOf_append]
      rfl
    rw [hsplit, List.length_append, List.length_append, List.length_cons,
      List.length_cons] at hcon
    omega

/-- Witness for `C7_is_valid_puzzle`: the one-hole 4-by-4 board `bHole` is
well-formed, `is_valid_puzzle` accepts it, so it has a unique completion;
and the counting loop rejects any run with two solution events. -/
theorem C7_is_valid_puzzle_witness :
    (∃! g, isCompletion bHole bHole.length
        (mkSudokuCSP bHole.length (some bHole)).box_size g) ∧
    countSolLoop [SEvent.solution [], SEvent.solution []] 0 = false :=
  ⟨(C7_is_valid_puzzle bHole (by constructor <;> decide) (by decide) (by decide)
      (by decide)).1.mp (by rfl),
   (C7_is_valid_puzzle bHole (by constructor <;> decide) (by decide) (by decide)
      (by decide)).2 [] [] [] [] []⟩
